import Mathlib

/-!
# A shallow embedding of the `dezero` reverse-mode autodiff core

This file embeds `src/dezero.rs` (the `Rc<RefCell<...>>` graph of `VariableCell`
and `FunctionCell` nodes, the operator construction protocol `FunctionCell::cons`,
and the generation-ordered backward scheduler `VariableCell::backward`) into Lean.

Modelling conventions:
* The `Rc<RefCell<...>>` heap is an arena: a `State` holds a list of variable
  cells and a list of function cells; `Rc` pointers become list indices, and the
  leaked-pointer `object_id`s become those indices (unique per node, as in the
  source).
* `Data = Array0<f64>` (a numeric scalar) is modelled as `ℚ`, an exact-arithmetic
  abstraction of the `f64` scalar; the transcendental `f64::exp` is taken as an
  explicit function parameter `rexp` wherever the `Exp` operator appears.
* A Rust panic (out-of-bounds index, `expect`, `unwrap`) is modelled as `none`.
* The `BinaryHeap<Candidate>` max-heap is modelled as a list kept sorted by
  descending priority (the `Reverse` plus reversed `Ord` in the source compose
  to a max-heap on `generation`); the `HashSet` seen-set is a list, with
  membership tested by the source's `PartialEq` on `(priority, id)`.
* The scheduler loop runs on explicit fuel; `funcs.length + 1` is enough fuel
  for every well-formed state, which is proved below.
-/

namespace Dezero

/-- `pub type Data = Array0<f64>`: one numeric scalar, modelled exactly. -/
abbrev Data := ℚ

/-- `enum ForwardFn` from the source. -/
inductive ForwardFn where
  | oneOne (f : Data → Data)
  | twoOne (f : Data → Data → Data)

/-- `enum BackwardFn` from the source. -/
inductive BackwardFn where
  | oneOneOne (f : Data → Data → Data)
  | oneOneTwo (f : Data → Data → Data × Data)

/-- `struct VariableCell`: `creator` is an index into the function arena. -/
structure VariableCell where
  data : Data
  grad : Option Data
  creator : Option Nat
  generation : Nat
  object_id : Nat

/-- `struct FunctionCell`: `inputs` and `outputs` are indices into the
variable arena. -/
structure FunctionCell where
  inputs : List Nat
  outputs : List Nat
  backward : BackwardFn
  generation : Nat
  object_id : Nat

/-- The arena holding every `Rc<RefCell<VariableCell>>` and
`Rc<RefCell<FunctionCell>>` allocation. -/
structure State where
  vars : List VariableCell
  funcs : List FunctionCell

def State.empty : State := ⟨[], []⟩

/-- `Variable::new(data)`: fresh cell with `grad = None`, `creator = None`,
`generation = 0`, and the fresh allocation's address as `object_id`. -/
def Variable.new (s : State) (d : Data) : State × Nat :=
  let vid := s.vars.length
  ({ s with vars := s.vars ++
      [{ data := d, grad := none, creator := none, generation := 0, object_id := vid }] },
   vid)

/-- `Variable::set_grad`. -/
def setGrad (s : State) (vid : Nat) (g : Data) : State :=
  match s.vars[vid]? with
  | none => s
  | some v => { s with vars := s.vars.set vid { v with grad := some g } }

/-- `Variable::clear_grad`. -/
def clearGrad (s : State) (vid : Nat) : State :=
  match s.vars[vid]? with
  | none => s
  | some v => { s with vars := s.vars.set vid { v with grad := none } }

/-- `clear_grad()` called on every Variable of the graph. -/
def clearAllGrads (s : State) : State :=
  { s with vars := s.vars.map (fun v => { v with grad := none }) }

/-- `FunctionCell::cons`: runs the forward computation on the inputs' data,
wraps the outputs in fresh Variables, sets their creator (which bumps their
generation to the Operation's generation plus one), records `inputs`/`outputs`,
and sets the Operation's generation to `max` of the input generations
(`.max().expect("generation")`, a panic on an empty input list).
Returns the new state and the list of output variable ids; `none` is a panic. -/
def cons (s : State) (fwd : ForwardFn) (bwd : BackwardFn) (inputIds : List Nat) :
    Option (State × List Nat) := do
  let xs ← inputIds.mapM (fun i => (s.vars[i]?).map (·.data))
  let ys ← match fwd with
    | .oneOne f => do
        let x0 ← xs[0]?
        pure [f x0]
    | .twoOne f => do
        let x0 ← xs[0]?
        let x1 ← xs[1]?
        pure [f x0 x1]
  let gens ← inputIds.mapM (fun i => (s.vars[i]?).map (·.generation))
  let g ← gens.max?
  let fid := s.funcs.length
  let base := s.vars.length
  let outCells := ys.enum.map (fun p =>
    { data := p.2, grad := none, creator := some fid, generation := g + 1,
      object_id := base + p.1 : VariableCell })
  let outIds := (List.range ys.length).map (fun i => base + i)
  let f : FunctionCell :=
    { inputs := inputIds, outputs := outIds, backward := bwd,
      generation := g, object_id := fid }
  pure ({ vars := s.vars ++ outCells, funcs := s.funcs ++ [f] }, outIds)

/-- `Square::forward_body`. -/
def Square.forward_body : Data → Data := fun x => x * x

/-- `Square::backward_body`. -/
def Square.backward_body : Data → Data → Data := fun x gy => 2 * x * gy

/-- `pub fn square`: a fresh `Square` and `call` on it (the `.pop().unwrap()`
takes the last, single, output). -/
def square (s : State) (x : Nat) : Option (State × Nat) := do
  let (s', outs) ← cons s (.oneOne Square.forward_body) (.oneOneOne Square.backward_body) [x]
  let y ← outs.getLast?
  pure (s', y)

/-- `Exp::forward_body` applies `f64::exp` pointwise; the exponential on our
exact model of `f64` is the parameter `rexp`. -/
def Exp.forward_body (rexp : Data → Data) : Data → Data := fun x => rexp x

/-- `Exp::backward_body`: `exp(x) * gy`. -/
def Exp.backward_body (rexp : Data → Data) : Data → Data → Data := fun x gy => rexp x * gy

/-- `pub fn exp`. -/
def exp (rexp : Data → Data) (s : State) (x : Nat) : Option (State × Nat) := do
  let (s', outs) ← cons s (.oneOne (Exp.forward_body rexp)) (.oneOneOne (Exp.backward_body rexp)) [x]
  let y ← outs.getLast?
  pure (s', y)

/-- `Add::forward_body`. -/
def Add.forward_body : Data → Data → Data := fun x y => x + y

/-- `Add::backward_body`: distributes the output gradient to both inputs. -/
def Add.backward_body : Data → Data → Data × Data := fun _ gy => (gy, gy)

/-- `pub fn add`. -/
def add (s : State) (x y : Nat) : Option (State × Nat) := do
  let (s', outs) ← cons s (.twoOne Add.forward_body) (.oneOneTwo Add.backward_body) [x, y]
  let z ← outs.getLast?
  pure (s', z)

/-- `struct Candidate`: `priority` stores the generation (the source's
`Reverse(generation)` combined with the reversed `Ord` makes the heap a
max-heap on generation), `id` the `object_id`, `func` the `Rc` as an index. -/
structure Candidate where
  priority : Nat
  id : Nat
  func : Nat
deriving DecidableEq

/-- Insertion into the descending-sorted list modelling `BinaryHeap::push`. -/
def heapPush (c : Candidate) : List Candidate → List Candidate
  | [] => [c]
  | d :: ds => if d.priority < c.priority then c :: d :: ds else d :: heapPush c ds

/-- The seen-set membership test: the source's `HashSet` hashes on `id` and
compares with `PartialEq`, which is equality of `priority` and `id`. -/
def seenMem (seen : List Candidate) (c : Candidate) : Bool :=
  seen.any (fun d => d.priority == c.priority && d.id == c.id)

/-- `add_func`: build the `Candidate` for `f`, and when unseen, insert it in
the seen set and push it on the heap. -/
def addFunc (s : State) (fid : Nat) (heap seen : List Candidate) :
    List Candidate × List Candidate :=
  match s.funcs[fid]? with
  | none => (heap, seen)
  | some f =>
    let c : Candidate := ⟨f.generation, f.object_id, fid⟩
    if seenMem seen c then (heap, seen) else (heapPush c heap, c :: seen)

/-- Gradient accumulation (`§4.3d` of the spec): sum when a gradient is
already present, set otherwise. -/
def accumGrad (s : State) (vid : Nat) (gx : Data) : State :=
  match s.vars[vid]? with
  | none => s
  | some v =>
      let g1 : Data := match v.grad with | some g0 => g0 + gx | none => gx
      { s with vars := s.vars.set vid { v with grad := some g1 } }

/-- `FunctionCell::backward`: reads the inputs' data and dispatches on the
stored `BackwardFn`; the `xs[0]` / `gys[0]` indexings are panics (`none`)
when out of bounds. -/
def fcBackward (s : State) (f : FunctionCell) (gys : List Data) : Option (List Data) := do
  let xs ← f.inputs.mapM (fun i => (s.vars[i]?).map (·.data))
  match f.backward with
  | .oneOneOne bf => do
      let x0 ← xs[0]?
      let g0 ← gys[0]?
      pure [bf x0 g0]
  | .oneOneTwo bf => do
      let x0 ← xs[0]?
      let g0 ← gys[0]?
      pure [(bf x0 g0).1, (bf x0 g0).2]

/-- The per-popped-Operation inner loop of `VariableCell::backward`: for each
`(x, gx)` pair, accumulate the gradient into `x` and enqueue `x`'s creator. -/
def stepPairs (s : State) (heap seen : List Candidate) :
    List (Nat × Data) → State × List Candidate × List Candidate
  | [] => (s, heap, seen)
  | (xid, gx) :: rest =>
    let s' := accumGrad s xid gx
    let hs :=
      match (s'.vars[xid]?).bind (·.creator) with
      | none => (heap, seen)
      | some fid => addFunc s' fid heap seen
    stepPairs s' hs.1 hs.2 rest

/-- The scheduler loop of `VariableCell::backward`, with explicit fuel.
Returns the final state and the sequence of popped candidates; `none` models
a panic (or exhausted fuel, which is proved unreachable for well-formed
states below). -/
def backwardLoop (s : State) (heap seen : List Candidate) :
    Nat → Option (State × List Candidate)
  | 0 =>
    match heap with
    | [] => some (s, [])
    | _ :: _ => none
  | fuel + 1 =>
    match heap with
    | [] => some (s, [])
    | c :: rest =>
      match s.funcs[c.func]? with
      | none => none
      | some f =>
        let gys := f.outputs.filterMap (fun yid => (s.vars[yid]?).bind (·.grad))
        match fcBackward s f gys with
        | none => none
        | some gxs =>
          let t := stepPairs s rest seen (f.inputs.zip gxs)
          match backwardLoop t.1 t.2.1 t.2.2 fuel with
          | none => none
          | some (s', pops) => some (s', c :: pops)

/-- `VariableCell::backward`: nothing happens without a creator; otherwise
seed the heap and the seen set with the creator and run the loop. -/
def cellBackward (s : State) (vid : Nat) : Option (State × List Candidate) :=
  match (s.vars[vid]?).bind (·.creator) with
  | none => some (s, [])
  | some fid =>
      let hs := addFunc s fid [] []
      backwardLoop s hs.1 hs.2 (s.funcs.length + 1)

/-- `Variable::backward`: unconditionally `set_grad(ones)` — the scalar `1` —
then run the cell-level backward. -/
def varBackward (s : State) (vid : Nat) : Option (State × List Candidate) :=
  cellBackward (setGrad s vid 1) vid

/-- `pub fn numerical_diff`: central difference with fresh perturbed
Variables; default `eps` is `1e-4`. -/
def numerical_diff (f : State → Nat → Option (State × Nat)) (s : State) (x : Nat)
    (eps : Option Data) : Option Data := do
  let e := eps.getD (1 / 10000)
  let v ← s.vars[x]?
  let p0 := Variable.new State.empty (v.data - e)
  let p1 := Variable.new State.empty (v.data + e)
  let (t0, y0) ← f p0.1 p0.2
  let (t1, y1) ← f p1.1 p1.2
  let v0 ← t0.vars[y0]?
  let v1 ← t1.vars[y1]?
  pure ((v1.data - v0.data) / (2 * e))

/-! ## Structural views of a state -/

/-- The forward-pass fields of a variable cell: everything but `grad`. -/
def stripGrad (v : VariableCell) : Data × Option Nat × Nat × Nat :=
  (v.data, v.creator, v.generation, v.object_id)

/-- `t` agrees with `s` on everything except possibly gradient values: the
functions (inputs, outputs, generations, ids) are identical, and every
variable cell agrees on `data`, `creator`, `generation` and `object_id`. -/
def structEq (s t : State) : Prop :=
  t.funcs = s.funcs ∧ t.vars.length = s.vars.length ∧
  ∀ vid : Nat, (t.vars[vid]?).map stripGrad = (s.vars[vid]?).map stripGrad

/-- The structural invariants established by the construction protocol:
function `object_id`s are their indices, every function has a non-empty input
list whose members are valid variables of generation at most the function's
generation, outputs are valid variable indices, and a variable's creator (when
present) is a valid function whose generation is one less than the variable's
and which lists the variable among its outputs. -/
def State.wf (s : State) : Bool :=
  ((List.range s.funcs.length).all fun fid =>
    match s.funcs[fid]? with
    | none => false
    | some f =>
      f.object_id == fid &&
      !f.inputs.isEmpty &&
      (match f.backward with
       | .oneOneOne _ => f.inputs.length == 1
       | .oneOneTwo _ => f.inputs.length == 2) &&
      (f.inputs.all fun x =>
        match s.vars[x]? with
        | none => false
        | some v => decide (v.generation ≤ f.generation)) &&
      (f.outputs.all fun y => decide (y < s.vars.length))) &&
  ((List.range s.vars.length).all fun vid =>
    match s.vars[vid]? with
    | none => false
    | some v =>
      match v.creator with
      | none => true
      | some fid =>
        match s.funcs[fid]? with
        | none => false
        | some f => v.generation == f.generation + 1 && f.outputs.contains vid)

/-! ## Small list helpers -/

theorem mapM_option_mem {α β : Type} (f : α → Option β) :
    ∀ (l : List α) (out : List β), l.mapM f = some out →
      ∀ a ∈ l, ∃ b, f a = some b ∧ b ∈ out := by
  intro l
  induction l with
  | nil => intro out _ a ha; cases ha
  | cons x xs ih =>
    intro out h a ha
    rw [List.mapM_cons] at h
    cases hx : f x with
    | none => rw [hx] at h; cases h
    | some b =>
      rw [hx] at h
      cases hxs : xs.mapM f with
      | none => rw [hxs] at h; cases h
      | some bs =>
        rw [hxs] at h
        simp only [Option.bind_eq_bind, Option.some_bind, Option.map_some] at h
        cases h
        rcases List.mem_cons.mp ha with rfl | ha
        · exact ⟨b, hx, List.mem_cons_self _ _⟩
        · obtain ⟨c, hc, hcmem⟩ := ih bs hxs a ha
          exact ⟨c, hc, List.mem_cons_of_mem _ hcmem⟩

theorem mapM_option_mem_rev {α β : Type} (f : α → Option β) :
    ∀ (l : List α) (out : List β), l.mapM f = some out →
      ∀ b ∈ out, ∃ a ∈ l, f a = some b := by
  intro l
  induction l with
  | nil =>
    intro out h b hb
    rw [List.mapM_nil] at h
    cases h
    cases hb
  | cons x xs ih =>
    intro out h b hb
    rw [List.mapM_cons] at h
    cases hx : f x with
    | none => rw [hx] at h; cases h
    | some c =>
      rw [hx] at h
      cases hxs : xs.mapM f with
      | none => rw [hxs] at h; cases h
      | some bs =>
        rw [hxs] at h
        simp only [Option.bind_eq_bind, Option.some_bind, Option.map_some] at h
        cases h
        rcases List.mem_cons.mp hb with rfl | hb
        · exact ⟨x, List.mem_cons_self _ _, hx⟩
        · obtain ⟨a, ha, hfa⟩ := ih bs hxs b hb
          exact ⟨a, List.mem_cons_of_mem _ ha, hfa⟩

theorem nat_max?_spec (l : List Nat) (g : Nat) (h : l.max? = some g) :
    g ∈ l ∧ ∀ b ∈ l, b ≤ g :=
  (List.max?_eq_some_iff (fun a => Nat.le_refl a) (fun a b => max_choice a b)
    (fun _ _ _ => Nat.max_le)).mp h

/-! ## Unpacking well-formedness -/

theorem wf_func {s : State} (h : s.wf = true) {fid : Nat} {f : FunctionCell}
    (hf : s.funcs[fid]? = some f) :
    f.object_id = fid ∧ f.inputs ≠ [] ∧
    (match f.backward with
     | .oneOneOne _ => f.inputs.length = 1
     | .oneOneTwo _ => f.inputs.length = 2) ∧
    (∀ x ∈ f.inputs, ∃ v, s.vars[x]? = some v ∧ v.generation ≤ f.generation) ∧
    (∀ y ∈ f.outputs, y < s.vars.length) := by
  have hlt : fid < s.funcs.length := (List.getElem?_eq_some.mp hf).1
  unfold State.wf at h
  rw [Bool.and_eq_true, List.all_eq_true, List.all_eq_true] at h
  have h1 := h.1 fid (List.mem_range.mpr hlt)
  rw [hf] at h1
  simp only [Bool.and_eq_true, beq_iff_eq, List.all_eq_true, decide_eq_true_eq,
    Bool.not_eq_true', List.isEmpty_eq_false] at h1
  obtain ⟨⟨⟨⟨hid, hne⟩, har⟩, hins⟩, houts⟩ := h1
  refine ⟨hid, hne, ?_, ?_, houts⟩
  · cases hbw : f.backward with
    | oneOneOne bf => rw [hbw] at har; exact beq_iff_eq.mp har
    | oneOneTwo bf => rw [hbw] at har; exact beq_iff_eq.mp har
  · intro x hx
    have := hins x hx
    cases hv : s.vars[x]? with
    | none => rw [hv] at this; cases this
    | some v =>
      rw [hv] at this
      dsimp only at this
      rw [decide_eq_true_eq] at this
      exact ⟨v, rfl, this⟩

theorem wf_var {s : State} (h : s.wf = true) {vid fid : Nat} {v : VariableCell}
    (hv : s.vars[vid]? = some v) (hc : v.creator = some fid) :
    ∃ f, s.funcs[fid]? = some f ∧ v.generation = f.generation + 1 ∧ vid ∈ f.outputs := by
  have hlt : vid < s.vars.length := (List.getElem?_eq_some.mp hv).1
  unfold State.wf at h
  rw [Bool.and_eq_true, List.all_eq_true, List.all_eq_true] at h
  have h2 := h.2 vid (List.mem_range.mpr hlt)
  rw [hv] at h2
  dsimp only at h2
  rw [hc] at h2
  dsimp only at h2
  cases hfo : s.funcs[fid]? with
  | none => rw [hfo] at h2; cases h2
  | some f =>
    rw [hfo] at h2
    dsimp only at h2
    rw [Bool.and_eq_true, beq_iff_eq] at h2
    refine ⟨f, rfl, h2.1, ?_⟩
    have := List.contains_iff_exists_mem_beq.mp h2.2
    obtain ⟨a, ha, hab⟩ := this
    rw [beq_iff_eq] at hab
    exact hab ▸ ha

/-! ## Characterizing the construction protocol -/

/-- The output Variable cells a successful `cons` appends to the arena. -/
def consOutCells (s : State) (g : Nat) (ys : List Data) : List VariableCell :=
  ys.enum.map (fun p =>
    { data := p.2, grad := none, creator := some s.funcs.length,
      generation := g + 1, object_id := s.vars.length + p.1 })

/-- The ids of the output Variables a successful `cons` returns. -/
def consOutIds (s : State) (ys : List Data) : List Nat :=
  (List.range ys.length).map (fun i => s.vars.length + i)

/-- The `FunctionCell` record a successful `cons` appends. -/
def consFunc (s : State) (bwd : BackwardFn) (ids : List Nat) (g : Nat)
    (ys : List Data) : FunctionCell :=
  { inputs := ids, outputs := consOutIds s ys, backward := bwd,
    generation := g, object_id := s.funcs.length }

/-- What a successful `FunctionCell::cons` produces, independent of the
particular forward computation. -/
theorem cons_eq_some {s : State} {fwd : ForwardFn} {bwd : BackwardFn}
    {ids : List Nat} {s' : State} {outs : List Nat}
    (h : cons s fwd bwd ids = some (s', outs)) :
    ∃ (ys : List Data) (gens : List Nat) (g : Nat),
      ids.mapM (fun i => (s.vars[i]?).map (·.generation)) = some gens ∧
      gens.max? = some g ∧
      outs = consOutIds s ys ∧
      s' = { vars := s.vars ++ consOutCells s g ys,
             funcs := s.funcs ++ [consFunc s bwd ids g ys] } := by
  unfold cons at h
  cases fwd with
  | oneOne fn =>
    cases hxs : ids.mapM (fun i => (s.vars[i]?).map (·.data)) with
    | none => rw [hxs] at h; cases h
    | some xs =>
      rw [hxs] at h
      dsimp only [Option.bind_eq_bind, Option.some_bind] at h
      cases hx0 : xs[0]? with
      | none => rw [hx0] at h; cases h
      | some x0 =>
        rw [hx0] at h
        dsimp only [Option.bind_eq_bind, Option.some_bind, pure] at h
        cases hgens : ids.mapM (fun i => (s.vars[i]?).map (·.generation)) with
        | none => rw [hgens] at h; cases h
        | some gens =>
          rw [hgens] at h
          dsimp only [Option.bind_eq_bind, Option.some_bind] at h
          cases hg : gens.max? with
          | none => rw [hg] at h; cases h
          | some g =>
            rw [hg] at h
            dsimp only [Option.bind_eq_bind, Option.some_bind, pure] at h
            injection h with h
            injection h with h1 h2
            exact ⟨[fn x0], gens, g, rfl, hg, h2.symm, h1.symm⟩
  | twoOne fn =>
    cases hxs : ids.mapM (fun i => (s.vars[i]?).map (·.data)) with
    | none => rw [hxs] at h; cases h
    | some xs =>
      rw [hxs] at h
      dsimp only [Option.bind_eq_bind, Option.some_bind] at h
      cases hx0 : xs[0]? with
      | none => rw [hx0] at h; cases h
      | some x0 =>
        rw [hx0] at h
        dsimp only [Option.bind_eq_bind, Option.some_bind] at h
        cases hx1 : xs[1]? with
        | none => rw [hx1] at h; cases h
        | some x1 =>
          rw [hx1] at h
          dsimp only [Option.bind_eq_bind, Option.some_bind, pure] at h
          cases hgens : ids.mapM (fun i => (s.vars[i]?).map (·.generation)) with
          | none => rw [hgens] at h; cases h
          | some gens =>
            rw [hgens] at h
            dsimp only [Option.bind_eq_bind, Option.some_bind] at h
            cases hg : gens.max? with
            | none => rw [hg] at h; cases h
            | some g =>
              rw [hg] at h
              dsimp only [Option.bind_eq_bind, Option.some_bind, pure] at h
              injection h with h
              injection h with h1 h2
              exact ⟨[fn x0 x1], gens, g, rfl, hg, h2.symm, h1.symm⟩

/-- C1 (amended): a successful `cons` gives the Operation the generation
`max(input generations)` (not `max + 1`); every output Variable gets creator
this Operation and generation `max(input generations) + 1`, which is strictly
greater than every input's generation; the Operation's generation is merely
greater than or equal to each input's generation, with equality at the max. -/
theorem cons_generations {s : State} {fwd : ForwardFn} {bwd : BackwardFn}
    {ids : List Nat} {s' : State} {outs : List Nat}
    (h : cons s fwd bwd ids = some (s', outs)) :
    ∃ f, s'.funcs[s.funcs.length]? = some f ∧
      (∀ i ∈ ids, ∀ v, s.vars[i]? = some v → v.generation ≤ f.generation) ∧
      (∃ i ∈ ids, ∃ v, s.vars[i]? = some v ∧ v.generation = f.generation) ∧
      ∀ y ∈ outs, ∃ w, s'.vars[y]? = some w ∧
        w.creator = some s.funcs.length ∧
        w.generation = f.generation + 1 ∧
        ∀ i ∈ ids, ∀ v, s.vars[i]? = some v → v.generation < w.generation := by
  obtain ⟨ys, gens, g, hgens, hg, houts, hs'⟩ := cons_eq_some h
  obtain ⟨hmem, hub⟩ := nat_max?_spec gens g hg
  subst hs'
  subst houts
  refine ⟨consFunc s bwd ids g ys, ?_, ?_, ?_, ?_⟩
  · show (s.funcs ++ [consFunc s bwd ids g ys])[s.funcs.length]? = _
    rw [List.getElem?_append_right (Nat.le_refl _), Nat.sub_self]
    rfl
  · intro i hi v hv
    obtain ⟨b, hb, hbmem⟩ := mapM_option_mem _ ids gens hgens i hi
    rw [hv, Option.map_some'] at hb
    injection hb with hb
    subst hb
    exact hub _ hbmem
  · obtain ⟨i, hi, hfi⟩ := mapM_option_mem_rev _ ids gens hgens g hmem
    cases hv : s.vars[i]? with
    | none => rw [hv] at hfi; cases hfi
    | some v =>
      rw [hv, Option.map_some'] at hfi
      injection hfi with hfi
      exact ⟨i, hi, v, hv, hfi⟩
  · intro y hy
    simp only [consOutIds] at hy
    obtain ⟨i, hir, hyi⟩ := List.mem_map.mp hy
    have hilt : i < ys.length := List.mem_range.mp hir
    subst hyi
    obtain ⟨d, hd⟩ : ∃ d, ys[i]? = some d := ⟨_, List.getElem?_eq_getElem hilt⟩
    refine ⟨⟨d, none, some s.funcs.length, g + 1, s.vars.length + i⟩, ?_, rfl, rfl, ?_⟩
    · show (s.vars ++ consOutCells s g ys)[s.vars.length + i]? = _
      simp only [consOutCells]
      rw [List.getElem?_append_right (Nat.le_add_right _ _), Nat.add_sub_cancel_left,
        List.getElem?_map, List.getElem?_enum, hd]
      rfl
    · intro j hj v hv
      obtain ⟨b, hb, hbmem⟩ := mapM_option_mem _ ids gens hgens j hj
      rw [hv, Option.map_some'] at hb
      injection hb with hb
      subst hb
      exact Nat.lt_succ_of_le (hub _ hbmem)

/-! ## Example graphs used as concrete instances -/

/-- `y = Add(x, x)` from a single leaf with data `a`; returns the final state,
the id of `x` and the id of `y`. -/
def diamondTwo (a : Data) : Option (State × Nat × Nat) := do
  let p := Variable.new State.empty a
  let (s, y) ← add p.1 p.2 p.2
  pure (s, p.2, y)

/-- `y = Add(x, Add(x, x))` from a single leaf with data `a`. -/
def diamondThree (a : Data) : Option (State × Nat × Nat) := do
  let p := Variable.new State.empty a
  let (s, t) ← add p.1 p.2 p.2
  let (s, y) ← add s p.2 t
  pure (s, p.2, y)

/-- Run `y.backward()` on a built graph and read off `x.grad`. -/
def gradAtRoot (b : Option (State × Nat × Nat)) : Option (Option Data) := do
  let (s, x, y) ← b
  let (s', _) ← varBackward s y
  let v ← s'.vars[x]?
  pure v.grad

/-! ## Claim theorems: gradient accumulation and the construction protocol -/

/-- The state `y = Add(x, x)` builds: ids `x = 0`, `y = 1`, one Add function. -/
def diamondTwoState (a : Data) : State :=
  ⟨[⟨a, none, none, 0, 0⟩, ⟨a + a, none, some 0, 1, 1⟩],
   [⟨[0, 0], [1], .oneOneTwo Add.backward_body, 0, 0⟩]⟩

/-- The state `y = Add(x, Add(x, x))` builds: ids `x = 0`, `t = 1`, `y = 2`. -/
def diamondThreeState (a : Data) : State :=
  ⟨[⟨a, none, none, 0, 0⟩, ⟨a + a, none, some 0, 1, 1⟩, ⟨a + (a + a), none, some 1, 2, 2⟩],
   [⟨[0, 0], [1], .oneOneTwo Add.backward_body, 0, 0⟩,
    ⟨[0, 1], [2], .oneOneTwo Add.backward_body, 1, 1⟩]⟩

/-- C2: gradient accumulation sums at a shared Variable: for every scalar `x`,
`y = add(x, x)` then `y.backward()` leaves `x.grad = 2`, and
`y = add(x, add(x, x))` leaves `x.grad = 3`. -/
theorem backward_diamond_accumulation (a : Data) :
    gradAtRoot (diamondTwo a) = some (some 2) ∧
    gradAtRoot (diamondThree a) = some (some 3) := by
  constructor
  · have hb : diamondTwo a = some (diamondTwoState a, 0, 1) := rfl
    rw [hb]
    have h : gradAtRoot (some (diamondTwoState a, 0, 1)) = some (some (1 + 1)) := rfl
    rw [h]
    norm_num
  · have hb : diamondThree a = some (diamondThreeState a, 0, 2) := rfl
    rw [hb]
    have h : gradAtRoot (some (diamondThreeState a, 0, 2)) = some (some (1 + 1 + 1)) := rfl
    rw [h]
    norm_num

/-- C8: constructing an Operation with zero inputs never returns: the
construction protocol panics (modelled by `none`) on an empty input list. -/
theorem cons_empty_inputs_panics (s : State) (fwd : ForwardFn) (bwd : BackwardFn) :
    cons s fwd bwd [] = none := by
  cases fwd <;> rfl

/-! ## Variable::backward seeding behaviour -/

theorem setGrad_getElem_self {s : State} {vid : Nat} {v : VariableCell}
    (hv : s.vars[vid]? = some v) (g : Data) :
    (setGrad s vid g).vars[vid]? = some { v with grad := some g } := by
  unfold setGrad
  rw [hv]
  dsimp only
  exact List.getElem?_set_self ((List.getElem?_eq_some.mp hv).1)

/-- C5 (amended): `Variable::backward` always starts by seeding the gradient
to ones — overwriting any previously stored gradient — and when the Variable
has no creator nothing further happens: the result is exactly the input state
with the gradient at `vid` replaced by `1`, and no Operation is popped. -/
theorem varBackward_no_creator (s : State) (vid : Nat) (v : VariableCell)
    (hv : s.vars[vid]? = some v) (hc : v.creator = none) :
    varBackward s vid = some (setGrad s vid 1, []) := by
  unfold varBackward cellBackward
  have hbind : ((setGrad s vid 1).vars[vid]?).bind (·.creator) = none := by
    rw [setGrad_getElem_self hv 1, Option.some_bind]
    exact hc
  rw [hbind]

/-- A one-leaf graph with data `3`, used as a concrete instance. -/
def leafState : State := (Variable.new State.empty 3).1

/-- The single cell of `leafState`. -/
def leafCell : VariableCell := ⟨3, none, none, 0, 0⟩

/-- Witness for `varBackward_no_creator` at the concrete one-leaf graph. -/
theorem varBackward_no_creator_witness :
    leafState.vars[0]? = some leafCell ∧ leafCell.creator = none ∧
    varBackward leafState 0 = some (setGrad leafState 0 1, []) :=
  ⟨rfl, rfl, varBackward_no_creator leafState 0 leafCell rfl rfl⟩

/-- `y.backward()` followed by reading `y.grad` back. -/
def gradAfterBackward (s : State) (vid : Nat) : Option (Option Data) := do
  let (s', _) ← varBackward s vid
  let v ← s'.vars[vid]?
  pure v.grad

/-- C5 counterexample: on a leaf `x` with data `3` whose gradient was
explicitly set to `5`, `x.backward()` does not preserve the stored gradient
as the seed — it overwrites it with `1` — and it is not a no-op either. -/
theorem backward_overwrites_existing_grad :
    gradAfterBackward (setGrad leafState 0 5) 0 = some (some 1) ∧
    gradAfterBackward (setGrad leafState 0 5) 0 ≠ some (some 5) ∧
    varBackward (setGrad leafState 0 5) 0 ≠ some (setGrad leafState 0 5, []) := by
  refine ⟨rfl, ?_, ?_⟩
  · intro h
    have h1 := (rfl :
      gradAfterBackward (setGrad leafState 0 5) 0 = some (some 1)).symm.trans h
    injection h1 with h1
    injection h1 with h1
    exact absurd h1 (by norm_num)
  · intro h
    have h1 : varBackward (setGrad leafState 0 5) 0 =
        some (setGrad (setGrad leafState 0 5) 0 1, []) := rfl
    rw [h1] at h
    injection h with h
    rw [Prod.mk.injEq] at h
    have h2 := congrArg (fun t => (t.vars[0]?).map (fun v => v.grad)) h.1
    dsimp only at h2
    have e1 : ((setGrad (setGrad leafState 0 5) 0 1).vars[0]?).map (fun v => v.grad) =
        some (some (1 : Data)) := rfl
    have e2 : ((setGrad leafState 0 5).vars[0]?).map (fun v => v.grad) =
        some (some (5 : Data)) := rfl
    rw [e1, e2] at h2
    injection h2 with h2
    injection h2 with h2
    exact absurd h2 (by norm_num)

/-- C1 counterexample: `y = Add(x, x)` on a generation-0 leaf builds an
Operation whose generation is `0 = max(input generations)`, not
`max(input generations) + 1 = 1`; in particular the Operation's generation is
not strictly greater than its inputs' generation `0`. -/
theorem op_generation_not_succ_max :
    diamondTwo 3 = some (diamondTwoState 3, 0, 1) ∧
    ((diamondTwoState 3).funcs[0]?).map (·.inputs) = some [0, 0] ∧
    ((diamondTwoState 3).vars[0]?).map (·.generation) = some 0 ∧
    ((diamondTwoState 3).funcs[0]?).map (·.generation) = some 0 ∧
    ((diamondTwoState 3).funcs[0]?).map (·.generation) ≠ some (0 + 1) :=
  ⟨rfl, rfl, rfl, rfl, by decide⟩

/-- Witness for `cons_generations`: the concrete `Add(x, x)` construction. -/
theorem cons_generations_witness :
    cons leafState (.twoOne Add.forward_body) (.oneOneTwo Add.backward_body) [0, 0] =
      some (diamondTwoState 3, [1]) ∧
    (∃ f, (diamondTwoState 3).funcs[leafState.funcs.length]? = some f ∧
      (∀ i ∈ [0, 0], ∀ v, leafState.vars[i]? = some v → v.generation ≤ f.generation) ∧
      (∃ i ∈ [0, 0], ∃ v, leafState.vars[i]? = some v ∧ v.generation = f.generation) ∧
      ∀ y ∈ [1], ∃ w, (diamondTwoState 3).vars[y]? = some w ∧
        w.creator = some leafState.funcs.length ∧
        w.generation = f.generation + 1 ∧
        ∀ i ∈ [0, 0], ∀ v, leafState.vars[i]? = some v → v.generation < w.generation) :=
  ⟨rfl, cons_generations (show cons leafState (.twoOne Add.forward_body)
    (.oneOneTwo Add.backward_body) [0, 0] = some (diamondTwoState 3, [1]) from rfl)⟩

/-! ## Frame lemmas: the backward pass touches only gradients -/

/-- `creator` of the Variable at `vid`, the scrutinee of the scheduler's
enqueue step. -/
def creatorOf (s : State) (vid : Nat) : Option Nat :=
  (s.vars[vid]?).bind (·.creator)

/-- The Variable at `vid` currently holds a gradient. -/
def gradSome (s : State) (vid : Nat) : Prop :=
  ∃ v, s.vars[vid]? = some v ∧ v.grad.isSome = true

theorem structEq_refl (s : State) : structEq s s := ⟨rfl, rfl, fun _ => rfl⟩

theorem structEq_trans {s t u : State} (h1 : structEq s t) (h2 : structEq t u) :
    structEq s u :=
  ⟨h2.1.trans h1.1, h2.2.1.trans h1.2.1, fun vid => (h2.2.2 vid).trans (h1.2.2 vid)⟩

theorem structEq_var {s t : State} (h : structEq s t) {vid : Nat} {v : VariableCell}
    (hv : s.vars[vid]? = some v) :
    ∃ w, t.vars[vid]? = some w ∧ w.data = v.data ∧ w.creator = v.creator ∧
      w.generation = v.generation ∧ w.object_id = v.object_id := by
  have hmap := h.2.2 vid
  rw [hv, Option.map_some'] at hmap
  cases hw : t.vars[vid]? with
  | none => rw [hw] at hmap; cases hmap
  | some w =>
    rw [hw, Option.map_some'] at hmap
    injection hmap with hmap
    simp only [stripGrad, Prod.mk.injEq] at hmap
    exact ⟨w, rfl, hmap.1, hmap.2.1, hmap.2.2.1, hmap.2.2.2⟩

theorem structEq_var_none {s t : State} (h : structEq s t) {vid : Nat}
    (hv : s.vars[vid]? = none) : t.vars[vid]? = none := by
  have hmap := h.2.2 vid
  rw [hv] at hmap
  cases hw : t.vars[vid]? with
  | none => rfl
  | some w => rw [hw, Option.map_some'] at hmap; cases hmap

theorem structEq_creatorOf {s t : State} (h : structEq s t) (vid : Nat) :
    creatorOf t vid = creatorOf s vid := by
  unfold creatorOf
  cases hv : s.vars[vid]? with
  | none => rw [structEq_var_none h hv]
  | some v =>
    obtain ⟨w, hw, -, hcr, -, -⟩ := structEq_var h hv
    rw [hw, Option.some_bind, Option.some_bind]
    exact hcr

theorem accumGrad_structEq (s : State) (vid : Nat) (gx : Data) :
    structEq s (accumGrad s vid gx) := by
  unfold accumGrad
  cases hv : s.vars[vid]? with
  | none => exact structEq_refl s
  | some v =>
    refine ⟨rfl, List.length_set _ _ _, fun j => ?_⟩
    show ((s.vars.set vid _)[j]?).map stripGrad = _
    rw [List.getElem?_set]
    by_cases hj : vid = j
    · subst hj
      rw [if_pos rfl, if_pos ((List.getElem?_eq_some.mp hv).1), hv]
      rfl
    · rw [if_neg hj]

theorem setGrad_structEq (s : State) (vid : Nat) (g : Data) :
    structEq s (setGrad s vid g) := by
  unfold setGrad
  cases hv : s.vars[vid]? with
  | none => exact structEq_refl s
  | some v =>
    refine ⟨rfl, List.length_set _ _ _, fun j => ?_⟩
    show ((s.vars.set vid _)[j]?).map stripGrad = _
    rw [List.getElem?_set]
    by_cases hj : vid = j
    · subst hj
      rw [if_pos rfl, if_pos ((List.getElem?_eq_some.mp hv).1), hv]
      rfl
    · rw [if_neg hj]

theorem accumGrad_gradSome_self {s : State} {vid : Nat} {v : VariableCell}
    (hv : s.vars[vid]? = some v) (gx : Data) :
    gradSome (accumGrad s vid gx) vid := by
  unfold accumGrad
  rw [hv]
  dsimp only
  exact ⟨_, List.getElem?_set_self ((List.getElem?_eq_some.mp hv).1), rfl⟩

theorem accumGrad_gradSome_mono {s : State} {w : Nat} (h : gradSome s w)
    (vid : Nat) (gx : Data) : gradSome (accumGrad s vid gx) w := by
  obtain ⟨v, hv, hg⟩ := h
  unfold accumGrad
  cases hv' : s.vars[vid]? with
  | none => exact ⟨v, hv, hg⟩
  | some v' =>
    dsimp only
    by_cases hw : vid = w
    · subst hw
      exact ⟨_, List.getElem?_set_self ((List.getElem?_eq_some.mp hv').1), rfl⟩
    · refine ⟨v, ?_, hg⟩
      show (s.vars.set vid _)[w]? = some v
      rw [List.getElem?_set_ne hw]
      exact hv

theorem stepPairs_structEq :
    ∀ (pairs : List (Nat × Data)) (s : State) (heap seen : List Candidate),
      structEq s (stepPairs s heap seen pairs).1 := by
  intro pairs
  induction pairs with
  | nil => intro s heap seen; exact structEq_refl s
  | cons p rest ih =>
    intro s heap seen
    obtain ⟨xid, gx⟩ := p
    exact structEq_trans (accumGrad_structEq s xid gx) (ih _ _ _)

theorem stepPairs_gradSome_mono :
    ∀ (pairs : List (Nat × Data)) (s : State) (heap seen : List Candidate) {w : Nat},
      gradSome s w → gradSome (stepPairs s heap seen pairs).1 w := by
  intro pairs
  induction pairs with
  | nil => intro s heap seen w h; exact h
  | cons p rest ih =>
    intro s heap seen w h
    obtain ⟨xid, gx⟩ := p
    exact ih _ _ _ (accumGrad_gradSome_mono h xid gx)

theorem backwardLoop_structEq :
    ∀ (fuel : Nat) (s : State) (heap seen : List Candidate) (s' : State)
      (pops : List Candidate),
      backwardLoop s heap seen fuel = some (s', pops) → structEq s s' := by
  intro fuel
  induction fuel with
  | zero =>
    intro s heap seen s' pops h
    cases heap with
    | nil =>
      unfold backwardLoop at h
      injection h with h
      rw [Prod.mk.injEq] at h
      exact h.1 ▸ structEq_refl s
    | cons c rest => unfold backwardLoop at h; cases h
  | succ fuel ih =>
    intro s heap seen s' pops h
    cases heap with
    | nil =>
      unfold backwardLoop at h
      injection h with h
      rw [Prod.mk.injEq] at h
      exact h.1 ▸ structEq_refl s
    | cons c rest =>
      unfold backwardLoop at h
      dsimp only at h
      cases hf : s.funcs[c.func]? with
      | none => rw [hf] at h; cases h
      | some f =>
        rw [hf] at h
        dsimp only at h
        cases hbw : fcBackward s f (f.outputs.filterMap
            (fun yid => (s.vars[yid]?).bind (·.grad))) with
        | none => rw [hbw] at h; cases h
        | some gxs =>
          rw [hbw] at h
          dsimp only at h
          cases hrec : backwardLoop (stepPairs s rest seen (f.inputs.zip gxs)).1
              (stepPairs s rest seen (f.inputs.zip gxs)).2.1
              (stepPairs s rest seen (f.inputs.zip gxs)).2.2 fuel with
          | none => rw [hrec] at h; cases h
          | some res =>
            obtain ⟨s1, pops1⟩ := res
            rw [hrec] at h
            dsimp only at h
            injection h with h
            rw [Prod.mk.injEq] at h
            exact h.1 ▸ structEq_trans (stepPairs_structEq _ _ _ _) (ih _ _ _ _ _ hrec)

/-- C7: a backward pass mutates only gradient fields: the functions and every
Variable's `data`, `creator`, `generation` and `object_id` are unchanged. -/
theorem varBackward_frame {s : State} {vid : Nat} {s' : State}
    {pops : List Candidate} (h : varBackward s vid = some (s', pops)) :
    structEq s s' := by
  unfold varBackward cellBackward at h
  cases hc : creatorOf (setGrad s vid 1) vid with
  | none =>
    rw [show ((setGrad s vid 1).vars[vid]?).bind (·.creator) = none from hc] at h
    injection h with h
    rw [Prod.mk.injEq] at h
    exact h.1 ▸ setGrad_structEq s vid 1
  | some fid =>
    rw [show ((setGrad s vid 1).vars[vid]?).bind (·.creator) = some fid from hc] at h
    dsimp only at h
    exact structEq_trans (setGrad_structEq s vid 1) (backwardLoop_structEq _ _ _ _ _ _ h)

/-- Witness for `varBackward_frame`: the diamond graph at data `3`. -/
theorem varBackward_frame_witness :
    (varBackward (diamondTwoState 3) 1).isSome = true ∧
    ∀ p ∈ varBackward (diamondTwoState 3) 1, structEq (diamondTwoState 3) p.1 :=
  ⟨rfl, fun _ hp => varBackward_frame (Option.mem_def.mp hp)⟩

/-! ## Heap, seen-set and backward-body helper lemmas -/

/-- Heap order: descending priority (the max-heap pops from the head). -/
def sortedDesc (l : List Candidate) : Prop :=
  List.Pairwise (fun a b => b.priority ≤ a.priority) l

theorem heapPush_mem {e c : Candidate} :
    ∀ {l : List Candidate}, e ∈ heapPush c l ↔ e = c ∨ e ∈ l := by
  intro l
  induction l with
  | nil => simp [heapPush]
  | cons d ds ih =>
    unfold heapPush
    by_cases hlt : d.priority < c.priority
    · rw [if_pos hlt]
      simp [List.mem_cons, or_left_comm, or_assoc]
    · rw [if_neg hlt]
      simp only [List.mem_cons, ih]
      tauto

theorem heapPush_length (c : Candidate) :
    ∀ (l : List Candidate), (heapPush c l).length = l.length + 1 := by
  intro l
  induction l with
  | nil => rfl
  | cons d ds ih =>
    unfold heapPush
    by_cases hlt : d.priority < c.priority
    · rw [if_pos hlt]; rfl
    · rw [if_neg hlt]
      simp [ih]

theorem mapM_option_total {α β : Type} (f : α → Option β) :
    ∀ (l : List α), (∀ a ∈ l, ∃ b, f a = some b) →
      ∃ out, l.mapM f = some out ∧ out.length = l.length := by
  intro l
  induction l with
  | nil => intro _; exact ⟨[], rfl, rfl⟩
  | cons x xs ih =>
    intro h
    obtain ⟨b, hb⟩ := h x (List.mem_cons_self _ _)
    obtain ⟨out, hout, hlen⟩ := ih (fun a ha => h a (List.mem_cons_of_mem _ ha))
    refine ⟨b :: out, ?_, by simp [hlen]⟩
    rw [List.mapM_cons, hb, hout]
    rfl

theorem heapPush_sorted {c : Candidate} :
    ∀ {l : List Candidate}, sortedDesc l → sortedDesc (heapPush c l) := by
  intro l
  unfold sortedDesc
  induction l with
  | nil => intro _; exact List.pairwise_singleton _ _
  | cons d ds ih =>
    intro hs
    rw [List.pairwise_cons] at hs
    unfold heapPush
    by_cases hlt : d.priority < c.priority
    · rw [if_pos hlt]
      rw [List.pairwise_cons]
      refine ⟨?_, List.pairwise_cons.mpr hs⟩
      intro e he
      rcases List.mem_cons.mp he with rfl | he
      · exact Nat.le_of_lt hlt
      · exact Nat.le_trans (hs.1 e he) (Nat.le_of_lt hlt)
    · rw [if_neg hlt]
      rw [List.pairwise_cons]
      refine ⟨?_, ih hs.2⟩
      intro e he
      rcases heapPush_mem.mp he with rfl | he
      · exact Nat.le_of_not_lt hlt
      · exact hs.1 e he

theorem seenMem_true {seen : List Candidate} {c : Candidate}
    (h : seenMem seen c = true) :
    ∃ d ∈ seen, d.priority = c.priority ∧ d.id = c.id := by
  unfold seenMem at h
  rw [List.any_eq_true] at h
  obtain ⟨d, hd, hdc⟩ := h
  rw [Bool.and_eq_true, beq_iff_eq, beq_iff_eq] at hdc
  exact ⟨d, hd, hdc.1, hdc.2⟩

theorem seenMem_false {seen : List Candidate} {c : Candidate}
    (h : seenMem seen c = false) :
    ∀ d ∈ seen, ¬ (d.priority = c.priority ∧ d.id = c.id) := by
  intro d hd hdc
  unfold seenMem at h
  rw [List.any_eq_false] at h
  have hx := h d hd
  rw [Bool.and_eq_true, beq_iff_eq, beq_iff_eq] at hx
  exact hx hdc

/-- How `add_func` rewrites the heap and the seen set. -/
theorem addFunc_spec (s : State) (fid : Nat) (heap seen : List Candidate) :
    (addFunc s fid heap seen = (heap, seen) ∧
      (s.funcs[fid]? = none ∨
        ∃ f, s.funcs[fid]? = some f ∧
          seenMem seen ⟨f.generation, f.object_id, fid⟩ = true)) ∨
    (∃ f, s.funcs[fid]? = some f ∧
      seenMem seen ⟨f.generation, f.object_id, fid⟩ = false ∧
      addFunc s fid heap seen =
        (heapPush ⟨f.generation, f.object_id, fid⟩ heap,
         ⟨f.generation, f.object_id, fid⟩ :: seen)) := by
  unfold addFunc
  cases hf : s.funcs[fid]? with
  | none => exact Or.inl ⟨rfl, Or.inl rfl⟩
  | some f =>
    dsimp only
    by_cases hm : seenMem seen ⟨f.generation, f.object_id, fid⟩ = true
    · rw [if_pos hm]
      exact Or.inl ⟨rfl, Or.inr ⟨f, rfl, hm⟩⟩
    · rw [if_neg hm]
      exact Or.inr ⟨f, rfl, Bool.eq_false_iff.mpr hm, rfl⟩

/-- `FunctionCell::backward` succeeds, with one gradient per input, whenever
the inputs are valid, the arity stored in `backward` matches the input count,
and at least one output gradient was gathered. -/
theorem fcBackward_total (s : State) (f : FunctionCell)
    (hxs : ∀ i ∈ f.inputs, ∃ v, s.vars[i]? = some v)
    (har : match f.backward with
           | .oneOneOne _ => f.inputs.length = 1
           | .oneOneTwo _ => f.inputs.length = 2)
    (gys : List Data) (hgys : gys ≠ []) :
    ∃ gxs, fcBackward s f gys = some gxs ∧ gxs.length = f.inputs.length := by
  obtain ⟨xs, hxsm, hxlen⟩ := mapM_option_total
    (fun i => (s.vars[i]?).map (·.data)) f.inputs
    (fun i hi => by
      obtain ⟨v, hv⟩ := hxs i hi
      exact ⟨v.data, by show Option.map _ s.vars[i]? = _; rw [hv, Option.map_some']⟩)
  have hg0 : ∃ g0, gys[0]? = some g0 := by
    cases gys with
    | nil => exact absurd rfl hgys
    | cons g gs => exact ⟨g, List.getElem?_cons_zero⟩
  obtain ⟨g0, hg0⟩ := hg0
  have hx0 : ∃ x0, xs[0]? = some x0 := by
    cases hxx : xs with
    | nil =>
      rw [hxx] at hxlen
      cases hbw : f.backward with
      | oneOneOne bf => rw [hbw] at har; rw [har] at hxlen; cases hxlen
      | oneOneTwo bf => rw [hbw] at har; rw [har] at hxlen; cases hxlen
    | cons x xx => exact ⟨x, List.getElem?_cons_zero⟩
  obtain ⟨x0, hx0⟩ := hx0
  unfold fcBackward
  rw [hxsm]
  dsimp only [Option.bind_eq_bind, Option.some_bind]
  cases hbw : f.backward with
  | oneOneOne bf =>
    rw [hbw] at har
    rw [hx0, hg0]
    dsimp only [Option.bind_eq_bind, Option.some_bind]
    exact ⟨_, rfl, by rw [har]; rfl⟩
  | oneOneTwo bf =>
    rw [hbw] at har
    rw [hx0, hg0]
    dsimp only [Option.bind_eq_bind, Option.some_bind]
    exact ⟨_, rfl, by rw [har]; rfl⟩


/-- A candidate as `Candidate::new` builds it: its priority is its function's
generation and its id the function's `object_id`. -/
def goodC (s0 : State) (c : Candidate) : Prop :=
  ∃ f, s0.funcs[c.func]? = some f ∧ c.priority = f.generation ∧ c.id = f.object_id

theorem goodC_id {s0 : State} (hwf : s0.wf = true) {c : Candidate} (h : goodC s0 c) :
    c.id = c.func := by
  obtain ⟨f, hf, -, hid⟩ := h
  rw [hid, (wf_func hwf hf).1]

theorem creatorOf_eq_some {s : State} {vid gid : Nat} (h : creatorOf s vid = some gid) :
    ∃ v, s.vars[vid]? = some v ∧ v.creator = some gid := by
  unfold creatorOf at h
  cases hv : s.vars[vid]? with
  | none => rw [hv] at h; cases h
  | some v => rw [hv, Option.some_bind] at h; exact ⟨v, rfl, h⟩

theorem heapPush_perm (c : Candidate) :
    ∀ (l : List Candidate), (heapPush c l).Perm (c :: l) := by
  intro l
  induction l with
  | nil => exact List.Perm.refl _
  | cons d ds ih =>
    unfold heapPush
    by_cases hlt : d.priority < c.priority
    · rw [if_pos hlt]
    · rw [if_neg hlt]
      exact (List.Perm.cons d ih).trans (List.Perm.swap c d ds)

/-- Under well-formedness, a candidate whose `(priority, id)` pair is not yet
in the seen set has an id different from every seen candidate's. -/
theorem seen_id_fresh {s0 : State} (hwf : s0.wf = true) {seen : List Candidate}
    (hgood : ∀ c ∈ seen, goodC s0 c) {gid : Nat} {fg : FunctionCell}
    (hfg : s0.funcs[gid]? = some fg)
    (hm : seenMem seen ⟨fg.generation, fg.object_id, gid⟩ = false) :
    ∀ d ∈ seen, d.id ≠ fg.object_id := by
  intro d hd heq
  obtain ⟨fd, hfd, hdp, hdi⟩ := hgood d hd
  have hdfunc : d.id = d.func := goodC_id hwf ⟨fd, hfd, hdp, hdi⟩
  have hgid : fg.object_id = gid := (wf_func hwf hfg).1
  have hdg : d.func = gid := by rw [← hdfunc, heq, hgid]
  rw [hdg] at hfd
  rw [hfg] at hfd
  injection hfd with hfd
  exact seenMem_false hm d hd ⟨by rw [hdp, ← hfd], heq⟩



/-- The scheduler-loop invariant, relative to a reference state `s0` and a
predicate `R` closed under the enqueue step: the current state differs from
`s0` only in gradients; the heap is a descending max-heap with pairwise
distinct ids, contained in the seen set; seen candidates are faithfully built
(`Candidate::new`) from `s0`'s functions, have pairwise distinct ids, and
satisfy `R`; every pending candidate has an output holding a gradient. -/
structure SchedInv (s0 : State) (R : Nat → Prop)
    (s : State) (heap seen : List Candidate) : Prop where
  hse : structEq s0 s
  sorted : sortedDesc heap
  hnodup : (heap.map (·.id)).Nodup
  hsub : ∀ c ∈ heap, c ∈ seen
  good : ∀ c ∈ seen, goodC s0 c
  snodup : (seen.map (·.id)).Nodup
  hR : ∀ c ∈ seen, R c.func
  hgrad : ∀ c ∈ heap, ∃ f yid, s0.funcs[c.func]? = some f ∧ yid ∈ f.outputs ∧ gradSome s yid

theorem stepPairs_spec (s0 : State) (hwf : s0.wf = true) (R : Nat → Prop) (b : Nat) :
    ∀ (pairs : List (Nat × Data)) (s : State) (heap seen : List Candidate)
      (s' : State) (heap' seen' : List Candidate),
      stepPairs s heap seen pairs = (s', heap', seen') →
      SchedInv s0 R s heap seen →
      (∀ c ∈ heap, c.priority ≤ b) →
      (∀ p ∈ pairs, ∀ gid, creatorOf s0 p.1 = some gid → R gid) →
      (∀ p ∈ pairs, ∀ gid f, creatorOf s0 p.1 = some gid → s0.funcs[gid]? = some f →
        f.generation < b) →
      SchedInv s0 R s' heap' seen' ∧
      (∀ c ∈ heap', c.priority ≤ b) ∧
      (∀ c ∈ seen, c ∈ seen') ∧
      (∀ c ∈ heap, c ∈ heap') ∧
      (∀ p ∈ pairs, ∀ gid, creatorOf s0 p.1 = some gid → ∃ d ∈ seen', d.func = gid) ∧
      heap'.length + seen.length = heap.length + seen'.length ∧
      (∀ c ∈ heap', c ∈ heap ∨ c.id ∉ seen.map (·.id)) ∧
      (∀ d ∈ seen', d ∈ seen ∨ d ∈ heap') := by
  intro pairs
  induction pairs with
  | nil =>
    intro s heap seen s' heap' seen' heq inv hb hRp hbp
    rw [stepPairs] at heq
    injection heq with h1 h23
    injection h23 with h2 h3
    subst h1; subst h2; subst h3
    exact ⟨inv, hb, fun c hc => hc, fun c hc => hc,
      fun p hp => (List.not_mem_nil p hp).elim,
      rfl, fun c hc => Or.inl hc, fun d hd => Or.inl hd⟩
  | cons p rest ih =>
    obtain ⟨xid, gx⟩ := p
    intro s heap seen s' heap' seen' heq inv hb hRp hbp
    rw [stepPairs] at heq
    have hse1 : structEq s0 (accumGrad s xid gx) :=
      structEq_trans inv.hse (accumGrad_structEq s xid gx)
    cases hcr : ((accumGrad s xid gx).vars[xid]?).bind (·.creator) with
    | none =>
      rw [hcr] at heq
      dsimp only at heq
      have inv1 : SchedInv s0 R (accumGrad s xid gx) heap seen :=
        { inv with
          hse := hse1
          hgrad := fun c hc => by
            obtain ⟨f, yid, hf, hy, hg⟩ := inv.hgrad c hc
            exact ⟨f, yid, hf, hy, accumGrad_gradSome_mono hg xid gx⟩ }
      obtain ⟨inv', hb', hsm, hhm, hcs, hlen, hnew, hfrom⟩ :=
        ih _ _ _ _ _ _ heq inv1 hb
          (fun p hp => hRp p (List.mem_cons_of_mem _ hp))
          (fun p hp => hbp p (List.mem_cons_of_mem _ hp))
      refine ⟨inv', hb', hsm, hhm, ?_, hlen, hnew, hfrom⟩
      intro p hp gid hg
      rcases List.mem_cons.mp hp with rfl | hp
      · have hnone : creatorOf s0 xid = none :=
          (structEq_creatorOf hse1 xid).symm.trans hcr
        rw [hnone] at hg
        cases hg
      · exact hcs p hp gid hg
    | some gid =>
      rw [hcr] at heq
      dsimp only at heq
      have hcr0 : creatorOf s0 xid = some gid :=
        (structEq_creatorOf hse1 xid).symm.trans hcr
      obtain ⟨v0, hv0, hv0c⟩ := creatorOf_eq_some hcr0
      obtain ⟨fg, hfg, hvgen, hxout⟩ := wf_var hwf hv0 hv0c
      have hfg1 : (accumGrad s xid gx).funcs[gid]? = some fg := by
        rw [hse1.1]; exact hfg
      rcases addFunc_spec (accumGrad s xid gx) gid heap seen with
        ⟨haf, hjust⟩ | ⟨fg', hfg', hm, haf⟩
      · -- the candidate was already seen (or the lookup failed, impossible here)
        rw [haf] at heq
        dsimp only at heq
        have inv1 : SchedInv s0 R (accumGrad s xid gx) heap seen :=
          { inv with
            hse := hse1
            hgrad := fun c hc => by
              obtain ⟨f, yid, hf, hy, hg⟩ := inv.hgrad c hc
              exact ⟨f, yid, hf, hy, accumGrad_gradSome_mono hg xid gx⟩ }
        obtain ⟨inv', hb', hsm, hhm, hcs, hlen, hnew, hfrom⟩ :=
          ih _ _ _ _ _ _ heq inv1 hb
            (fun p hp => hRp p (List.mem_cons_of_mem _ hp))
            (fun p hp => hbp p (List.mem_cons_of_mem _ hp))
        refine ⟨inv', hb', hsm, hhm, ?_, hlen, hnew, hfrom⟩
        intro p hp gid' hg
        rcases List.mem_cons.mp hp with rfl | hp
        · -- the head pair: its creator is gid, already represented in seen
          have hgid' : gid' = gid := by
            dsimp only at hg
            rw [hcr0] at hg
            injection hg with h
            exact h.symm
          rw [hgid']
          rcases hjust with hnone | ⟨f', hf', hmem⟩
          · rw [hfg1] at hnone; cases hnone
          · rw [hfg1] at hf'
            injection hf' with hf'
            subst hf'
            obtain ⟨d, hd, hdp, hdi⟩ := seenMem_true hmem
            have hdfunc : d.func = gid := by
              have h1 : d.id = d.func := goodC_id hwf (inv.good d hd)
              have h2 : fg.object_id = gid := (wf_func hwf hfg).1
              rw [← h1, hdi, h2]
            exact ⟨d, hsm d hd, hdfunc⟩
        · exact hcs p hp gid' hg
      · -- a fresh candidate is pushed
        rw [hfg1] at hfg'
        injection hfg' with hfg'
        subst hfg'
        rw [haf] at heq
        dsimp only at heq
        have hfresh : ∀ d ∈ seen, d.id ≠ fg.object_id :=
          seen_id_fresh hwf inv.good hfg hm
        have hcgheap : ∀ d ∈ heap, d.id ≠ fg.object_id :=
          fun d hd => hfresh d (inv.hsub d hd)
        have inv1 : SchedInv s0 R (accumGrad s xid gx)
            (heapPush ⟨fg.generation, fg.object_id, gid⟩ heap)
            (⟨fg.generation, fg.object_id, gid⟩ :: seen) :=
          { hse := hse1
            sorted := heapPush_sorted inv.sorted
            hnodup := by
              have hperm := (heapPush_perm ⟨fg.generation, fg.object_id, gid⟩ heap).map
                (fun c : Candidate => c.id)
              rw [hperm.nodup_iff]
              rw [List.map_cons, List.nodup_cons]
              refine ⟨fun hmem => ?_, inv.hnodup⟩
              obtain ⟨d, hd, hdeq⟩ := List.mem_map.mp hmem
              exact hcgheap d hd hdeq
            hsub := by
              intro c hc
              rcases heapPush_mem.mp hc with rfl | hc
              · exact List.mem_cons_self _ _
              · exact List.mem_cons_of_mem _ (inv.hsub c hc)
            good := by
              intro c hc
              rcases List.mem_cons.mp hc with rfl | hc
              · exact ⟨fg, hfg, rfl, rfl⟩
              · exact inv.good c hc
            snodup := by
              rw [List.map_cons, List.nodup_cons]
              refine ⟨fun hmem => ?_, inv.snodup⟩
              obtain ⟨d, hd, hdeq⟩ := List.mem_map.mp hmem
              exact hfresh d hd hdeq
            hR := by
              intro c hc
              rcases List.mem_cons.mp hc with rfl | hc
              · exact hRp (xid, gx) (List.mem_cons_self _ _) gid hcr0
              · exact inv.hR c hc
            hgrad := by
              intro c hc
              rcases heapPush_mem.mp hc with rfl | hc
              · obtain ⟨w, hw, -, -, -, -⟩ := structEq_var inv.hse hv0
                exact ⟨fg, xid, hfg, hxout, accumGrad_gradSome_self hw gx⟩
              · obtain ⟨f, yid, hf, hy, hg⟩ := inv.hgrad c hc
                exact ⟨f, yid, hf, hy, accumGrad_gradSome_mono hg xid gx⟩ }
        have hb1 : ∀ c ∈ heapPush ⟨fg.generation, fg.object_id, gid⟩ heap,
            c.priority ≤ b := by
          intro c hc
          rcases heapPush_mem.mp hc with rfl | hc
          · exact Nat.le_of_lt (hbp (xid, gx) (List.mem_cons_self _ _) gid fg hcr0 hfg)
          · exact hb c hc
        obtain ⟨inv', hb', hsm, hhm, hcs, hlen, hnew, hfrom⟩ :=
          ih _ _ _ _ _ _ heq inv1 hb1
            (fun p hp => hRp p (List.mem_cons_of_mem _ hp))
            (fun p hp => hbp p (List.mem_cons_of_mem _ hp))
        refine ⟨inv', hb', ?_, ?_, ?_, ?_, ?_, ?_⟩
        · exact fun c hc => hsm c (List.mem_cons_of_mem _ hc)
        · exact fun c hc => hhm c (heapPush_mem.mpr (Or.inr hc))
        · intro p hp gid' hg
          rcases List.mem_cons.mp hp with rfl | hp
          · have hgid' : gid' = gid := by
              dsimp only at hg
              rw [hcr0] at hg
              injection hg with h
              exact h.symm
            rw [hgid']
            exact ⟨_, hsm _ (List.mem_cons_self _ _), rfl⟩
          · exact hcs p hp gid' hg
        · rw [heapPush_length] at hlen
          simp only [List.length_cons] at hlen
          omega
        · intro c hc
          rcases hnew c hc with hc1 | hc2
          · rcases heapPush_mem.mp hc1 with rfl | hc1
            · refine Or.inr (fun hmem => ?_)
              obtain ⟨d, hd, hdeq⟩ := List.mem_map.mp hmem
              exact hfresh d hd hdeq
            · exact Or.inl hc1
          · refine Or.inr (fun hmem => hc2 ?_)
            rw [List.map_cons]
            exact List.mem_cons_of_mem _ hmem
        · intro d hd
          rcases hfrom d hd with hd1 | hd2
          · rcases List.mem_cons.mp hd1 with rfl | hd1
            · exact Or.inr (hhm _ (heapPush_mem.mpr (Or.inl rfl)))
            · exact Or.inl hd1
          · exact Or.inr hd2



theorem nodup_lt_length_le (l : List Nat) (n : Nat) (hnd : l.Nodup)
    (hlt : ∀ i ∈ l, i < n) : l.length ≤ n := by
  have hcard : l.toFinset.card = l.length := List.toFinset_card_of_nodup hnd
  have hsub : l.toFinset ⊆ Finset.range n := by
    intro i hi
    exact Finset.mem_range.mpr (hlt i (List.mem_toFinset.mp hi))
  have := Finset.card_le_card hsub
  rw [hcard, Finset.card_range] at this
  exact this

theorem schedInv_seen_le {s0 : State} (hwf : s0.wf = true) {R : Nat → Prop}
    {s : State} {heap seen : List Candidate} (inv : SchedInv s0 R s heap seen) :
    seen.length ≤ s0.funcs.length := by
  have hlt : ∀ i ∈ seen.map (·.id), i < s0.funcs.length := by
    intro i hi
    obtain ⟨c, hc, rfl⟩ := List.mem_map.mp hi
    obtain ⟨f, hf, -, hid⟩ := inv.good c hc
    rw [hid, (wf_func hwf hf).1]
    exact (List.getElem?_eq_some.mp hf).1
  have := nodup_lt_length_le _ _ inv.snodup hlt
  rwa [List.length_map] at this

theorem mem_zip_left {α β : Type} :
    ∀ (l1 : List α) (l2 : List β), l2.length = l1.length →
      ∀ a ∈ l1, ∃ b, (a, b) ∈ l1.zip l2 := by
  intro l1
  induction l1 with
  | nil => intro l2 _ a ha; cases ha
  | cons x xs ih =>
    intro l2 hlen a ha
    cases l2 with
    | nil => cases hlen
    | cons y ys =>
      simp only [List.length_cons, Nat.succ_inj] at hlen
      rcases List.mem_cons.mp ha with rfl | ha
      · exact ⟨y, List.mem_cons_self _ _⟩
      · obtain ⟨b, hb⟩ := ih ys hlen a ha
        exact ⟨b, List.mem_cons_of_mem _ hb⟩

/-- What one full run of the scheduler loop guarantees about the popped
sequence: frame-respecting result, non-increasing generations along the pop
order, every pending candidate popped exactly once, every pop reachable
(satisfies `R`), the creators of every popped function's inputs are
themselves popped or were in the initial seen set, and popped priorities are
their functions' generations. -/
structure LoopPost (s0 : State) (R : Nat → Prop) (heap seen : List Candidate)
    (s' : State) (pops : List Candidate) : Prop where
  hse : structEq s0 s'
  sorted : sortedDesc pops
  bounded : ∀ e ∈ pops, ∃ d ∈ heap, e.priority ≤ d.priority
  pnodup : (pops.map (·.id)).Nodup
  idfunc : ∀ e ∈ pops, e.id = e.func
  popped : ∀ c ∈ heap, c ∈ pops
  hR : ∀ e ∈ pops, R e.func
  closure : ∀ e ∈ pops, ∀ f, s0.funcs[e.func]? = some f → ∀ xid ∈ f.inputs, ∀ gid,
    creatorOf s0 xid = some gid →
    (∃ e2 ∈ pops, e2.func = gid) ∨ (∃ d ∈ seen, d.func = gid)
  gen : ∀ e ∈ pops, ∃ f, s0.funcs[e.func]? = some f ∧ e.priority = f.generation
  isNew : ∀ e ∈ pops, e ∈ heap ∨ e.id ∉ seen.map (·.id)

theorem backwardLoop_spec (s0 : State) (hwf : s0.wf = true) (R : Nat → Prop)
    (hRclosed : ∀ fid f, R fid → s0.funcs[fid]? = some f → ∀ xid ∈ f.inputs,
      ∀ gid, creatorOf s0 xid = some gid → R gid) :
    ∀ (fuel : Nat) (s : State) (heap seen : List Candidate),
      SchedInv s0 R s heap seen →
      heap.length + s0.funcs.length ≤ fuel + seen.length →
      ∃ s' pops, backwardLoop s heap seen fuel = some (s', pops) ∧
        LoopPost s0 R heap seen s' pops := by
  intro fuel
  induction fuel with
  | zero =>
    intro s heap seen inv hfuel
    cases heap with
    | nil =>
      refine ⟨s, [], rfl, ?_⟩
      exact
        { hse := inv.hse
          sorted := List.Pairwise.nil
          bounded := fun e he => (List.not_mem_nil e he).elim
          pnodup := List.nodup_nil
          idfunc := fun e he => (List.not_mem_nil e he).elim
          popped := fun c hc => (List.not_mem_nil c hc).elim
          hR := fun e he => (List.not_mem_nil e he).elim
          closure := fun e he => (List.not_mem_nil e he).elim
          gen := fun e he => (List.not_mem_nil e he).elim
          isNew := fun e he => (List.not_mem_nil e he).elim }
    | cons c rest =>
      exfalso
      have hseen := schedInv_seen_le hwf inv
      simp only [List.length_cons] at hfuel
      omega
  | succ fuel ih =>
    intro s heap seen inv hfuel
    cases heap with
    | nil =>
      refine ⟨s, [], rfl, ?_⟩
      exact
        { hse := inv.hse
          sorted := List.Pairwise.nil
          bounded := fun e he => (List.not_mem_nil e he).elim
          pnodup := List.nodup_nil
          idfunc := fun e he => (List.not_mem_nil e he).elim
          popped := fun c hc => (List.not_mem_nil c hc).elim
          hR := fun e he => (List.not_mem_nil e he).elim
          closure := fun e he => (List.not_mem_nil e he).elim
          gen := fun e he => (List.not_mem_nil e he).elim
          isNew := fun e he => (List.not_mem_nil e he).elim }
    | cons c rest =>
      have hcseen := inv.hsub c (List.mem_cons_self _ _)
      obtain ⟨f, hf, hcp, hcid⟩ := inv.good c hcseen
      have hfs : s.funcs[c.func]? = some f := by rw [inv.hse.1]; exact hf
      obtain ⟨hoid, hne, har, hins, houts⟩ := wf_func hwf hf
      obtain ⟨f2, yid, hf2, hyout, hgs⟩ := inv.hgrad c (List.mem_cons_self _ _)
      rw [hf] at hf2
      injection hf2 with hf2
      subst hf2
      have hgysne : f.outputs.filterMap (fun y => (s.vars[y]?).bind (·.grad)) ≠ [] := by
        obtain ⟨v, hv, hvg⟩ := hgs
        have hsome : ∃ g, (s.vars[yid]?).bind (·.grad) = some g := by
          rw [hv, Option.some_bind]
          cases hgg : v.grad with
          | none => rw [hgg] at hvg; cases hvg
          | some g => exact ⟨g, rfl⟩
        obtain ⟨g, hgsome⟩ := hsome
        have hmemg : g ∈ f.outputs.filterMap (fun y => (s.vars[y]?).bind (·.grad)) :=
          List.mem_filterMap.mpr ⟨yid, hyout, hgsome⟩
        intro hnil
        rw [hnil] at hmemg
        cases hmemg
      have hxsvalid : ∀ i ∈ f.inputs, ∃ v, s.vars[i]? = some v := by
        intro i hi
        obtain ⟨v, hv, -⟩ := hins i hi
        obtain ⟨w, hw, -, -, -, -⟩ := structEq_var inv.hse hv
        exact ⟨w, hw⟩
      obtain ⟨gxs, hbw, hgxlen⟩ := fcBackward_total s f hxsvalid har
        (f.outputs.filterMap (fun y => (s.vars[y]?).bind (·.grad))) hgysne
      rcases htriple : stepPairs s rest seen (f.inputs.zip gxs) with ⟨s1, h1, sn1⟩
      have hrestinv : SchedInv s0 R s rest seen :=
        { inv with
          sorted := (List.pairwise_cons.mp inv.sorted).2
          hnodup := by
            have := inv.hnodup
            rw [List.map_cons, List.nodup_cons] at this
            exact this.2
          hsub := fun d hd => inv.hsub d (List.mem_cons_of_mem _ hd)
          hgrad := fun d hd => inv.hgrad d (List.mem_cons_of_mem _ hd) }
      have hbrest : ∀ d ∈ rest, d.priority ≤ c.priority :=
        (List.pairwise_cons.mp inv.sorted).1
      have hRp : ∀ p ∈ f.inputs.zip gxs, ∀ gid, creatorOf s0 p.1 = some gid → R gid := by
        intro p hp gid hg
        obtain ⟨xid, gx⟩ := p
        have hpin : xid ∈ f.inputs := (List.of_mem_zip hp).1
        exact hRclosed c.func f (inv.hR c hcseen) hf xid hpin gid hg
      have hbp : ∀ p ∈ f.inputs.zip gxs, ∀ gid fgg, creatorOf s0 p.1 = some gid →
          s0.funcs[gid]? = some fgg → fgg.generation < c.priority := by
        intro p hp gid fgg hg hfgg
        obtain ⟨xid, gx⟩ := p
        have hpin : xid ∈ f.inputs := (List.of_mem_zip hp).1
        obtain ⟨v, hv, hvc⟩ := creatorOf_eq_some hg
        obtain ⟨fgg2, hfgg2, hgen, -⟩ := wf_var hwf hv hvc
        rw [hfgg] at hfgg2
        injection hfgg2 with hfgg2
        subst hfgg2
        obtain ⟨v2, hv2, hvgen⟩ := hins xid hpin
        rw [hv] at hv2
        injection hv2 with hv2
        subst hv2
        rw [hcp]
        omega
      obtain ⟨inv1, hb1, hsm, hhm, hcs, hlen, hnewh, hfrom⟩ :=
        stepPairs_spec s0 hwf R c.priority (f.inputs.zip gxs) s rest seen s1 h1 sn1
          htriple hrestinv hbrest hRp hbp
      have hfuel1 : h1.length + s0.funcs.length ≤ fuel + sn1.length := by
        simp only [List.length_cons] at hfuel
        omega
      obtain ⟨s', pops, hloop, post⟩ := ih s1 h1 sn1 inv1 hfuel1
      have hpopsle : ∀ e ∈ pops, e.priority ≤ c.priority := by
        intro e he
        obtain ⟨d, hd, hed⟩ := post.bounded e he
        exact Nat.le_trans hed (hb1 d hd)
      have hcidseen : c.id ∈ seen.map (·.id) := List.mem_map_of_mem _ hcseen
      have hpopsnotc : ∀ e ∈ pops, e.id ≠ c.id := by
        intro e he heq
        rcases post.isNew e he with he1 | he2
        · rcases hnewh e he1 with he3 | he4
          · have := inv.hnodup
            rw [List.map_cons, List.nodup_cons] at this
            exact this.1 (heq ▸ List.mem_map_of_mem _ he3)
          · exact he4 (heq ▸ hcidseen)
        · exact he2 (heq ▸ List.mem_map_of_mem _ (hsm c hcseen))
      refine ⟨s', c :: pops, ?_, ?_⟩
      · unfold backwardLoop
        dsimp only
        rw [hfs]
        dsimp only
        rw [hbw]
        dsimp only
        rw [htriple]
        dsimp only
        rw [hloop]
      · exact
        { hse := post.hse
          sorted := by
            rw [sortedDesc, List.pairwise_cons]
            exact ⟨hpopsle, post.sorted⟩
          bounded := by
            intro e he
            rcases List.mem_cons.mp he with rfl | he
            · exact ⟨e, List.mem_cons_self _ _, Nat.le_refl _⟩
            · exact ⟨c, List.mem_cons_self _ _, hpopsle e he⟩
          pnodup := by
            rw [List.map_cons, List.nodup_cons]
            refine ⟨fun hmem => ?_, post.pnodup⟩
            obtain ⟨e, he, heq⟩ := List.mem_map.mp hmem
            exact hpopsnotc e he heq
          idfunc := by
            intro e he
            rcases List.mem_cons.mp he with rfl | he
            · rw [hcid, hoid]
            · exact post.idfunc e he
          popped := by
            intro d hd
            rcases List.mem_cons.mp hd with rfl | hd
            · exact List.mem_cons_self _ _
            · exact List.mem_cons_of_mem _ (post.popped d (hhm d hd))
          hR := by
            intro e he
            rcases List.mem_cons.mp he with rfl | he
            · exact inv.hR e hcseen
            · exact post.hR e he
          closure := by
            intro e he fe hfe xid hxid gid hg
            rcases List.mem_cons.mp he with rfl | he
            · rw [hf] at hfe
              injection hfe with hfe
              subst hfe
              obtain ⟨gx, hgx⟩ := mem_zip_left f.inputs gxs hgxlen xid hxid
              obtain ⟨d, hd, hdf⟩ := hcs (xid, gx) hgx gid hg
              rcases hfrom d hd with hd1 | hd2
              · exact Or.inr ⟨d, hd1, hdf⟩
              · exact Or.inl ⟨d, List.mem_cons_of_mem _ (post.popped d hd2), hdf⟩
            · rcases post.closure e he fe hfe xid hxid gid hg with ⟨e2, he2, he2f⟩ | ⟨d, hd, hdf⟩
              · exact Or.inl ⟨e2, List.mem_cons_of_mem _ he2, he2f⟩
              · rcases hfrom d hd with hd1 | hd2
                · exact Or.inr ⟨d, hd1, hdf⟩
                · exact Or.inl ⟨d, List.mem_cons_of_mem _ (post.popped d hd2), hdf⟩
          gen := by
            intro e he
            rcases List.mem_cons.mp he with rfl | he
            · exact ⟨f, hf, hcp⟩
            · exact post.gen e he
          isNew := by
            intro e he
            rcases List.mem_cons.mp he with rfl | he
            · exact Or.inl (List.mem_cons_self _ _)
            · rcases post.isNew e he with he1 | he2
              · rcases hnewh e he1 with he3 | he4
                · exact Or.inl (List.mem_cons_of_mem _ he3)
                · exact Or.inr he4
              · exact Or.inr (fun hmem => he2 (List.mem_map.mpr
                  (by obtain ⟨d, hd, hdeq⟩ := List.mem_map.mp hmem
                      exact ⟨d, hsm d hd, hdeq⟩))) }



theorem structEq_symm {s t : State} (h : structEq s t) : structEq t s :=
  ⟨h.1.symm, h.2.1.symm, fun vid => (h.2.2 vid).symm⟩

/-- Well-formedness only reads structural fields, so it transports along
`structEq`. -/
theorem structEq_wf {s t : State} (h : structEq s t) (hw : s.wf = true) :
    t.wf = true := by
  unfold State.wf at hw ⊢
  rw [Bool.and_eq_true, List.all_eq_true, List.all_eq_true] at hw ⊢
  obtain ⟨hw1, hw2⟩ := hw
  constructor
  · intro fid hfid
    rw [h.1] at hfid ⊢
    have h1 := hw1 fid hfid
    cases hf : s.funcs[fid]? with
    | none => rw [hf] at h1; cases h1
    | some f =>
      rw [hf] at h1
      dsimp only at h1 ⊢
      simp only [Bool.and_eq_true] at h1 ⊢
      refine ⟨⟨⟨⟨h1.1.1.1.1, h1.1.1.1.2⟩, h1.1.1.2⟩, ?_⟩, ?_⟩
      · have hins := h1.1.2
        rw [List.all_eq_true] at hins ⊢
        intro x hx
        have hx1 := hins x hx
        cases hv : s.vars[x]? with
        | none => rw [hv] at hx1; cases hx1
        | some v =>
          rw [hv] at hx1
          obtain ⟨w, hwv, -, -, hgen, -⟩ := structEq_var h hv
          rw [hwv]
          dsimp only at hx1 ⊢
          rw [hgen]
          exact hx1
      · have houts := h1.2
        rw [List.all_eq_true] at houts ⊢
        intro y hy
        have := houts y hy
        rw [decide_eq_true_eq] at this ⊢
        rw [h.2.1]
        exact this
  · intro vid hvid
    rw [h.2.1] at hvid
    have h2 := hw2 vid hvid
    cases hv : s.vars[vid]? with
    | none => rw [hv] at h2; cases h2
    | some v =>
      rw [hv] at h2
      dsimp only at h2
      obtain ⟨w, hwv, -, hcr, hgen, -⟩ := structEq_var h hv
      rw [hwv]
      dsimp only
      rw [hcr, hgen]
      cases hc : v.creator with
      | none => rfl
      | some fid =>
        rw [hc] at h2
        dsimp only at h2 ⊢
        rw [h.1]
        exact h2



/-- The Operations the scheduler can reach from `root`: the root's creator,
and, transitively, the creators of the inputs of reached Operations. -/
inductive Reaches (s : State) (root : Nat) : Nat → Prop where
  | creator {fid : Nat} : creatorOf s root = some fid → Reaches s root fid
  | step {fid gid xid : Nat} {f : FunctionCell} : Reaches s root fid →
      s.funcs[fid]? = some f → xid ∈ f.inputs →
      creatorOf s xid = some gid → Reaches s root gid

theorem reaches_of_structEq {s t : State} (h : structEq s t) (root : Nat) :
    ∀ fid, Reaches s root fid → Reaches t root fid := by
  intro fid hr
  induction hr with
  | creator hc => exact Reaches.creator (by rw [structEq_creatorOf h]; exact hc)
  | step hr hf hx hc ih =>
    exact Reaches.step ih (by rw [h.1]; exact hf) hx
      (by rw [structEq_creatorOf h]; exact hc)

theorem reaches_none {s : State} {root : Nat} (h : creatorOf s root = none) :
    ∀ fid, ¬ Reaches s root fid := by
  intro fid hr
  induction hr with
  | creator hc => rw [h] at hc; cases hc
  | step hr hf hx hc ih => exact ih

/-- The full behaviour of one `Variable::backward` call on a well-formed
state: it returns (no panic), pops in non-increasing generation order, pops
each Operation at most once, pops priorities are their Operations'
generations, and the popped Operations are exactly the ones reachable from
the root through creator edges. -/
theorem varBackward_core {s : State} (hwf : s.wf = true) (vid : Nat) :
    ∃ s' pops, varBackward s vid = some (s', pops) ∧
      sortedDesc pops ∧
      (pops.map (·.func)).Nodup ∧
      (∀ e ∈ pops, ∃ f, s.funcs[e.func]? = some f ∧ e.priority = f.generation) ∧
      (∀ fid, fid ∈ pops.map (·.func) ↔ Reaches s vid fid) := by
  have hse1 : structEq s (setGrad s vid 1) := setGrad_structEq s vid 1
  have hwf1 : (setGrad s vid 1).wf = true := structEq_wf hse1 hwf
  unfold varBackward cellBackward
  cases hcr : ((setGrad s vid 1).vars[vid]?).bind (·.creator) with
  | none =>
    refine ⟨setGrad s vid 1, [], rfl, List.Pairwise.nil, List.nodup_nil,
      fun e he => (List.not_mem_nil e he).elim, ?_⟩
    intro fid
    constructor
    · intro hmem; cases hmem
    · intro hr
      have hnone : creatorOf s vid = none :=
        (structEq_creatorOf hse1 vid).symm.trans hcr
      exact (reaches_none hnone fid hr).elim
  | some fid0 =>
    have hcrS : creatorOf s vid = some fid0 :=
      (structEq_creatorOf hse1 vid).symm.trans hcr
    obtain ⟨v0, hv0, hv0c⟩ := creatorOf_eq_some (show creatorOf (setGrad s vid 1) vid = some fid0 from hcr)
    obtain ⟨f0, hf0, -, hvout⟩ := wf_var hwf1 hv0 hv0c
    have hgs1 : gradSome (setGrad s vid 1) vid := by
      cases horig : s.vars[vid]? with
      | none =>
        rw [structEq_var_none hse1 horig] at hv0
        cases hv0
      | some vOrig =>
        exact ⟨_, setGrad_getElem_self horig 1, rfl⟩
    have haf : addFunc (setGrad s vid 1) fid0 [] [] =
        ([⟨f0.generation, f0.object_id, fid0⟩], [⟨f0.generation, f0.object_id, fid0⟩]) := by
      unfold addFunc
      rw [hf0]
      dsimp only
      rw [if_neg (by exact Bool.false_ne_true)]
      rfl
    have hRclosed : ∀ fid f, Reaches s vid fid → (setGrad s vid 1).funcs[fid]? = some f →
        ∀ xid ∈ f.inputs, ∀ gid, creatorOf (setGrad s vid 1) xid = some gid →
          Reaches s vid gid := by
      intro fid f hr hf xid hx gid hc
      exact Reaches.step hr (by rw [← hse1.1]; exact hf) hx
        ((structEq_creatorOf hse1 xid).symm.trans hc)
    have inv : SchedInv (setGrad s vid 1) (Reaches s vid) (setGrad s vid 1)
        [⟨f0.generation, f0.object_id, fid0⟩] [⟨f0.generation, f0.object_id, fid0⟩] :=
      { hse := structEq_refl _
        sorted := List.pairwise_singleton _ _
        hnodup := List.nodup_singleton _
        hsub := fun c hc => hc
        good := by
          intro c hc
          rcases List.mem_cons.mp hc with rfl | hc
          · exact ⟨f0, hf0, rfl, rfl⟩
          · cases hc
        snodup := List.nodup_singleton _
        hR := by
          intro c hc
          rcases List.mem_cons.mp hc with rfl | hc
          · exact Reaches.creator hcrS
          · cases hc
        hgrad := by
          intro c hc
          rcases List.mem_cons.mp hc with rfl | hc
          · exact ⟨f0, vid, hf0, hvout, hgs1⟩
          · cases hc }
    have hfuel : ([⟨f0.generation, f0.object_id, fid0⟩] : List Candidate).length +
        (setGrad s vid 1).funcs.length ≤ ((setGrad s vid 1).funcs.length + 1) +
        ([⟨f0.generation, f0.object_id, fid0⟩] : List Candidate).length := by
      omega
    obtain ⟨s', pops, hloop, post⟩ := backwardLoop_spec (setGrad s vid 1) hwf1
      (Reaches s vid) hRclosed ((setGrad s vid 1).funcs.length + 1) (setGrad s vid 1)
      _ _ inv hfuel
    refine ⟨s', pops, ?_, post.sorted, ?_, ?_, ?_⟩
    · dsimp only
      rw [haf]
      dsimp only
      exact hloop
    · rw [List.map_congr_left (fun e he => (post.idfunc e he).symm)]
      exact post.pnodup
    · intro e he
      obtain ⟨f, hf, hgen⟩ := post.gen e he
      exact ⟨f, by rw [← hse1.1]; exact hf, hgen⟩
    · intro fid
      constructor
      · intro hmem
        obtain ⟨e, he, rfl⟩ := List.mem_map.mp hmem
        exact post.hR e he
      · intro hr
        induction hr with
        | creator hc =>
          rw [hcrS] at hc
          injection hc with hc
          subst hc
          exact List.mem_map_of_mem _ (post.popped _ (List.mem_cons_self _ _))
        | step hr2 hf hx hc ih =>
          obtain ⟨e, he, hef⟩ := List.mem_map.mp ih
          rcases post.closure e he _ (by rw [hef, hse1.1]; exact hf) _ hx _
              ((structEq_creatorOf hse1 _).trans hc) with ⟨e2, he2, he2f⟩ | ⟨d, hd, hdf⟩
          · exact he2f ▸ List.mem_map_of_mem _ he2
          · rcases List.mem_cons.mp hd with rfl | hdn
            · exact hdf ▸ List.mem_map_of_mem _ (post.popped _ (List.mem_cons_self _ _))
            · cases hdn



/-- C3: during a backward pass on a well-formed graph, Operations are popped
in non-increasing priority order, and every popped candidate's priority is its
Operation's generation — so generations are non-increasing along the pop
sequence. -/
theorem backward_pops_nonincreasing {s : State} (hwf : s.wf = true) (vid : Nat) :
    ∀ p ∈ varBackward s vid, sortedDesc p.2 ∧
      ∀ e ∈ p.2, ∃ f, s.funcs[e.func]? = some f ∧ e.priority = f.generation := by
  intro p hp
  obtain ⟨s', pops, heq, hsort, hnd, hgen, hiff⟩ := varBackward_core hwf vid
  rw [Option.mem_def, heq] at hp
  injection hp with hp
  subst hp
  exact ⟨hsort, hgen⟩

/-- Witness for `backward_pops_nonincreasing`: the `Add(x, Add(x, x))`
graph. -/
theorem backward_pops_nonincreasing_witness :
    (diamondThreeState 3).wf = true ∧
    (varBackward (diamondThreeState 3) 2).isSome = true ∧
    ∀ p ∈ varBackward (diamondThreeState 3) 2, sortedDesc p.2 ∧
      ∀ e ∈ p.2, ∃ f, (diamondThreeState 3).funcs[e.func]? = some f ∧
        e.priority = f.generation :=
  ⟨by decide, rfl, backward_pops_nonincreasing (by decide) 2⟩

/-- A graph with three reconvergent paths to one Operation:
`t = Square(x)`, `a = Add(t, t)`, `y = Add(a, t)` at `x = 2`. -/
def tripleState : State :=
  ⟨[⟨2, none, none, 0, 0⟩, ⟨4, none, some 0, 1, 1⟩, ⟨8, none, some 1, 2, 2⟩,
    ⟨12, none, some 2, 3, 3⟩],
   [⟨[0], [1], .oneOneOne Square.backward_body, 0, 0⟩,
    ⟨[1, 1], [2], .oneOneTwo Add.backward_body, 1, 1⟩,
    ⟨[2, 1], [3], .oneOneTwo Add.backward_body, 2, 2⟩]⟩

/-- C4: in one backward pass over a well-formed graph each Operation's
backward is invoked at most once (the popped function list has no
duplicates), and the popped Operations are exactly the ones reachable from
the root; moreover, on the three-reconvergent-path graph `tripleState` the
shared `Square` Operation receives the summed output-gradient `1+1+1 = 3` and
produces `x.grad = 2·2·3 = 12`. -/
theorem backward_dedup_exactly_once :
    (∀ (s : State), s.wf = true → ∀ (vid : Nat), ∀ p ∈ varBackward s vid,
      (p.2.map (·.func)).Nodup ∧
      ∀ fid, fid ∈ p.2.map (·.func) ↔ Reaches s vid fid) ∧
    gradAtRoot (some (tripleState, 0, 3)) = some (some 12) := by
  constructor
  · intro s hwf vid p hp
    obtain ⟨s', pops, heq, hsort, hnd, hgen, hiff⟩ := varBackward_core hwf vid
    rw [Option.mem_def, heq] at hp
    injection hp with hp
    subst hp
    exact ⟨hnd, hiff⟩
  · have h : gradAtRoot (some (tripleState, 0, 3)) = some (some (2 * 2 * (1 + 1 + 1))) := rfl
    rw [h]
    norm_num

/-- Witness for `backward_dedup_exactly_once`: the three-path graph. -/
theorem backward_dedup_exactly_once_witness :
    tripleState.wf = true ∧ (varBackward tripleState 3).isSome = true ∧
    ∀ p ∈ varBackward tripleState 3,
      (p.2.map (·.func)).Nodup ∧
      ∀ fid, fid ∈ p.2.map (·.func) ↔ Reaches tripleState 3 fid :=
  ⟨by decide, rfl, backward_dedup_exactly_once.1 tripleState (by decide) 3⟩

/-- Converse of `wf_func`/`wf_var`: packing the structural invariants back
into the Boolean checker. -/
theorem wf_intro {s : State}
    (hfuncs : ∀ (fid : Nat) (f : FunctionCell), s.funcs[fid]? = some f → f.object_id = fid ∧ f.inputs ≠ [] ∧
      (match f.backward with
       | .oneOneOne _ => f.inputs.length = 1
       | .oneOneTwo _ => f.inputs.length = 2) ∧
      (∀ x ∈ f.inputs, ∃ v, s.vars[x]? = some v ∧ v.generation ≤ f.generation) ∧
      (∀ y ∈ f.outputs, y < s.vars.length))
    (hvars : ∀ (vid : Nat) (v : VariableCell), s.vars[vid]? = some v → ∀ fid, v.creator = some fid →
      ∃ f, s.funcs[fid]? = some f ∧ v.generation = f.generation + 1 ∧ vid ∈ f.outputs) :
    s.wf = true := by
  unfold State.wf
  rw [Bool.and_eq_true, List.all_eq_true, List.all_eq_true]
  constructor
  · intro fid hfid
    rw [List.mem_range] at hfid
    obtain ⟨f, hf⟩ : ∃ f, s.funcs[fid]? = some f := ⟨_, List.getElem?_eq_getElem hfid⟩
    rw [hf]
    obtain ⟨hoid, hne, har, hins, houts⟩ := hfuncs fid f hf
    dsimp only
    simp only [Bool.and_eq_true, beq_iff_eq, List.all_eq_true, decide_eq_true_eq,
      Bool.not_eq_true', List.isEmpty_eq_false]
    refine ⟨⟨⟨⟨hoid, hne⟩, ?_⟩, ?_⟩, houts⟩
    · cases hbw : f.backward with
      | oneOneOne bf => rw [hbw] at har; exact beq_iff_eq.mpr har
      | oneOneTwo bf => rw [hbw] at har; exact beq_iff_eq.mpr har
    · intro x hx
      obtain ⟨v, hv, hgen⟩ := hins x hx
      rw [hv]
      dsimp only
      rw [decide_eq_true_eq]
      exact hgen
  · intro vid hvid
    rw [List.mem_range] at hvid
    obtain ⟨v, hv⟩ : ∃ v, s.vars[vid]? = some v := ⟨_, List.getElem?_eq_getElem hvid⟩
    rw [hv]
    dsimp only
    cases hc : v.creator with
    | none => rfl
    | some fid =>
      obtain ⟨f, hf, hgen, hout⟩ := hvars vid v hv fid hc
      dsimp only
      rw [hf]
      dsimp only
      rw [Bool.and_eq_true, beq_iff_eq]
      refine ⟨hgen, List.contains_iff_exists_mem_beq.mpr ⟨vid, hout, beq_iff_eq.mpr rfl⟩⟩



theorem newVar_wf {s : State} (hwf : s.wf = true) (d : Data) :
    (Variable.new s d).1.wf = true := by
  apply wf_intro
  · intro fid f hf
    obtain ⟨hoid, hne, har, hins, houts⟩ := wf_func hwf hf
    refine ⟨hoid, hne, har, ?_, ?_⟩
    · intro x hx
      obtain ⟨v, hv, hgen⟩ := hins x hx
      refine ⟨v, ?_, hgen⟩
      show (s.vars ++ [_])[x]? = some v
      rw [List.getElem?_append, if_pos (List.getElem?_eq_some.mp hv).1]
      exact hv
    · intro y hy
      have := houts y hy
      show y < (s.vars ++ [_]).length
      rw [List.length_append]
      omega
  · intro vid v hv fid hc
    by_cases hlt : vid < s.vars.length
    · have hv' : s.vars[vid]? = some v := by
        have hh : (s.vars ++ [_])[vid]? = some v := hv
        rwa [List.getElem?_append, if_pos hlt] at hh
      exact wf_var hwf hv' hc
    · exfalso
      have hlen : vid < s.vars.length + 1 := by
        have := (List.getElem?_eq_some.mp hv).1
        simpa [Variable.new] using this
      have hvid : vid = s.vars.length := by omega
      subst hvid
      have hh : (s.vars ++
          [{ data := d, grad := none, creator := none, generation := 0,
             object_id := s.vars.length : VariableCell }])[s.vars.length]? =
          some v := hv
      rw [List.getElem?_append_right (Nat.le_refl _), Nat.sub_self] at hh
      injection hh with hh
      rw [← hh] at hc
      cases hc

theorem cons_wf {s : State} (hwf : s.wf = true) {fwd : ForwardFn} {bwd : BackwardFn}
    {ids : List Nat} {s' : State} {outs : List Nat}
    (h : cons s fwd bwd ids = some (s', outs))
    (harity : match bwd with
              | .oneOneOne _ => ids.length = 1
              | .oneOneTwo _ => ids.length = 2) :
    s'.wf = true := by
  obtain ⟨ys, gens, g, hgens, hg, houts, hs'⟩ := cons_eq_some h
  obtain ⟨hmax, hub⟩ := nat_max?_spec gens g hg
  subst hs'
  have hlenout : (consOutCells s g ys).length = ys.length := by
    simp [consOutCells, List.enum_length]
  have hidsne : ids ≠ [] := by
    revert harity
    cases bwd with
    | oneOneOne bf =>
      intro harity hnil
      have h1 : ids.length = 1 := harity
      rw [hnil] at h1
      simp at h1
    | oneOneTwo bf =>
      intro harity hnil
      have h1 : ids.length = 2 := harity
      rw [hnil] at h1
      simp at h1
  have hinputs : ∀ x ∈ ids, ∃ v, s.vars[x]? = some v ∧ v.generation ≤ g := by
    intro x hx
    obtain ⟨b, hb, hbmem⟩ := mapM_option_mem _ ids gens hgens x hx
    cases hv : s.vars[x]? with
    | none => rw [hv] at hb; cases hb
    | some v =>
      rw [hv, Option.map_some'] at hb
      injection hb with hb
      subst hb
      exact ⟨v, rfl, hub _ hbmem⟩
  apply wf_intro
  · intro fid f hf
    by_cases hlt : fid < s.funcs.length
    · have hf' : s.funcs[fid]? = some f := by
        have hh : (s.funcs ++ [consFunc s bwd ids g ys])[fid]? = some f := hf
        rwa [List.getElem?_append, if_pos hlt] at hh
      obtain ⟨hoid, hne, har, hins, hout⟩ := wf_func hwf hf'
      refine ⟨hoid, hne, har, ?_, ?_⟩
      · intro x hx
        obtain ⟨v, hv, hgen⟩ := hins x hx
        refine ⟨v, ?_, hgen⟩
        show (s.vars ++ consOutCells s g ys)[x]? = some v
        rw [List.getElem?_append, if_pos (List.getElem?_eq_some.mp hv).1]
        exact hv
      · intro y hy
        have := hout y hy
        show y < (s.vars ++ consOutCells s g ys).length
        rw [List.length_append]
        omega
    · -- the new function
      have hflen : fid < s.funcs.length + 1 := by
        have := (List.getElem?_eq_some.mp hf).1
        simpa using this
      have hfid : fid = s.funcs.length := by omega
      subst hfid
      have hh : (s.funcs ++ [consFunc s bwd ids g ys])[s.funcs.length]? =
          some (consFunc s bwd ids g ys) := by
        rw [List.getElem?_append_right (Nat.le_refl _), Nat.sub_self]
        rfl
      rw [hf] at hh
      injection hh with hh
      subst hh
      refine ⟨rfl, hidsne, ?_, ?_, ?_⟩
      · revert harity
        cases bwd with
        | oneOneOne bf => intro harity; exact harity
        | oneOneTwo bf => intro harity; exact harity
      · intro x hx
        obtain ⟨v, hv, hgen⟩ := hinputs x hx
        refine ⟨v, ?_, hgen⟩
        show (s.vars ++ consOutCells s g ys)[x]? = some v
        rw [List.getElem?_append, if_pos (List.getElem?_eq_some.mp hv).1]
        exact hv
      · intro y hy
        simp only [consFunc, consOutIds] at hy
        obtain ⟨i, hir, hyi⟩ := List.mem_map.mp hy
        have hilt : i < ys.length := List.mem_range.mp hir
        subst hyi
        show s.vars.length + i < (s.vars ++ consOutCells s g ys).length
        rw [List.length_append, hlenout]
        omega
  · intro vid v hv fid hc
    by_cases hlt : vid < s.vars.length
    · have hv' : s.vars[vid]? = some v := by
        have hh : (s.vars ++ consOutCells s g ys)[vid]? = some v := hv
        rwa [List.getElem?_append, if_pos hlt] at hh
      obtain ⟨f, hf, hgen, hout⟩ := wf_var hwf hv' hc
      refine ⟨f, ?_, hgen, hout⟩
      show (s.funcs ++ [consFunc s bwd ids g ys])[fid]? = some f
      rw [List.getElem?_append, if_pos (List.getElem?_eq_some.mp hf).1]
      exact hf
    · -- a fresh output variable
      have hvlen : vid < s.vars.length + (consOutCells s g ys).length := by
        have := (List.getElem?_eq_some.mp hv).1
        rwa [List.length_append] at this
      rw [hlenout] at hvlen
      have hh : (s.vars ++ consOutCells s g ys)[vid]? =
          (consOutCells s g ys)[vid - s.vars.length]? := by
        rw [List.getElem?_append_right (Nat.le_of_not_lt hlt)]
      rw [hv] at hh
      have hilt : vid - s.vars.length < ys.length := by omega
      obtain ⟨d, hd⟩ : ∃ d, ys[vid - s.vars.length]? = some d :=
        ⟨_, List.getElem?_eq_getElem hilt⟩
      have hcell : (consOutCells s g ys)[vid - s.vars.length]? =
          some { data := d, grad := none, creator := some s.funcs.length,
                 generation := g + 1, object_id := s.vars.length + (vid - s.vars.length) } := by
        simp only [consOutCells]
        rw [List.getElem?_map, List.getElem?_enum, hd]
        rfl
      rw [hcell] at hh
      injection hh with hh
      subst hh
      have hfideq : s.funcs.length = fid := by
        injection hc
      subst hfideq
      refine ⟨consFunc s bwd ids g ys, ?_, rfl, ?_⟩
      · show (s.funcs ++ [consFunc s bwd ids g ys])[s.funcs.length]? = _
        rw [List.getElem?_append_right (Nat.le_refl _), Nat.sub_self]
        rfl
      · show vid ∈ consOutIds s ys
        simp only [consOutIds]
        refine List.mem_map.mpr ⟨vid - s.vars.length, List.mem_range.mpr hilt, ?_⟩
        omega



/-- One user-level graph-building action: creating a leaf Variable or calling
one of the public operators. -/
inductive Step where
  | leaf (d : Data)
  | sq (x : Nat)
  | ex (rexp : Data → Data) (x : Nat)
  | ad (x y : Nat)

/-- Run one building action; `none` models a panic during construction. -/
def applyStep (s : State) : Step → Option State
  | .leaf d => some (Variable.new s d).1
  | .sq x => (square s x).map (·.1)
  | .ex rexp x => (exp rexp s x).map (·.1)
  | .ad x y => (add s x y).map (·.1)

/-- A forward graph built solely through the public operators. -/
def build (steps : List Step) : Option State :=
  steps.foldlM applyStep State.empty

theorem square_wf {s : State} (hwf : s.wf = true) {x : Nat} {p : State × Nat}
    (h : square s x = some p) : p.1.wf = true := by
  unfold square at h
  cases hc : cons s (.oneOne Square.forward_body) (.oneOneOne Square.backward_body) [x] with
  | none => rw [hc] at h; cases h
  | some q =>
    rw [hc] at h
    dsimp only [Option.bind_eq_bind, Option.some_bind] at h
    cases hl : q.2.getLast? with
    | none => rw [hl] at h; cases h
    | some y =>
      rw [hl] at h
      dsimp only [Option.bind_eq_bind, Option.some_bind, pure] at h
      injection h with h
      rw [← h]
      exact cons_wf hwf hc rfl

theorem exp_wf {s : State} (hwf : s.wf = true) {rexp : Data → Data} {x : Nat}
    {p : State × Nat} (h : exp rexp s x = some p) : p.1.wf = true := by
  unfold exp at h
  cases hc : cons s (.oneOne (Exp.forward_body rexp))
      (.oneOneOne (Exp.backward_body rexp)) [x] with
  | none => rw [hc] at h; cases h
  | some q =>
    rw [hc] at h
    dsimp only [Option.bind_eq_bind, Option.some_bind] at h
    cases hl : q.2.getLast? with
    | none => rw [hl] at h; cases h
    | some y =>
      rw [hl] at h
      dsimp only [Option.bind_eq_bind, Option.some_bind, pure] at h
      injection h with h
      rw [← h]
      exact cons_wf hwf hc rfl

theorem add_wf {s : State} (hwf : s.wf = true) {x y : Nat} {p : State × Nat}
    (h : add s x y = some p) : p.1.wf = true := by
  unfold add at h
  cases hc : cons s (.twoOne Add.forward_body) (.oneOneTwo Add.backward_body) [x, y] with
  | none => rw [hc] at h; cases h
  | some q =>
    rw [hc] at h
    dsimp only [Option.bind_eq_bind, Option.some_bind] at h
    cases hl : q.2.getLast? with
    | none => rw [hl] at h; cases h
    | some z =>
      rw [hl] at h
      dsimp only [Option.bind_eq_bind, Option.some_bind, pure] at h
      injection h with h
      rw [← h]
      exact cons_wf hwf hc rfl

theorem applyStep_wf {s : State} (hwf : s.wf = true) {st : Step} {s' : State}
    (h : applyStep s st = some s') : s'.wf = true := by
  cases st with
  | leaf d =>
    unfold applyStep at h
    dsimp only at h
    injection h with h
    rw [← h]
    exact newVar_wf hwf d
  | sq x =>
    unfold applyStep at h
    dsimp only at h
    cases hsq : square s x with
    | none => rw [hsq] at h; cases h
    | some p =>
      rw [hsq, Option.map_some'] at h
      injection h with h
      rw [← h]
      exact square_wf hwf hsq
  | ex rexp x =>
    unfold applyStep at h
    dsimp only at h
    cases hex : exp rexp s x with
    | none => rw [hex] at h; cases h
    | some p =>
      rw [hex, Option.map_some'] at h
      injection h with h
      rw [← h]
      exact exp_wf hwf hex
  | ad x y =>
    unfold applyStep at h
    dsimp only at h
    cases had : add s x y with
    | none => rw [had] at h; cases h
    | some p =>
      rw [had, Option.map_some'] at h
      injection h with h
      rw [← h]
      exact add_wf hwf had

theorem foldlM_applyStep_wf :
    ∀ (steps : List Step) (s : State), s.wf = true →
      ∀ s', List.foldlM applyStep s steps = some s' → s'.wf = true := by
  intro steps
  induction steps with
  | nil =>
    intro s hwf s' h
    rw [List.foldlM_nil] at h
    injection h with h
    rw [← h]
    exact hwf
  | cons st rest ih =>
    intro s hwf s' h
    rw [List.foldlM_cons] at h
    cases hap : applyStep s st with
    | none => rw [hap] at h; cases h
    | some s1 =>
      rw [hap] at h
      dsimp only [Option.bind_eq_bind, Option.some_bind] at h
      exact ih s1 (applyStep_wf hwf hap) s' h

/-- Every state built through the public operators is well-formed. -/
theorem build_wf {steps : List Step} {s : State} (h : build steps = some s) :
    s.wf = true :=
  foldlM_applyStep_wf steps State.empty rfl s h

/-- C10: a backward pass on any graph built solely through the public
operators `square`, `exp` and `add` never panics: whenever the scheduler pops
an Operation its output already holds a gradient, the gathered output-gradient
list is non-empty, and the `gys[0]` / `xs[0]` accesses are in bounds, so the
whole call returns. -/
theorem backward_never_panics (steps : List Step) (s : State) (vid : Nat)
    (hb : build steps = some s) : (varBackward s vid).isSome = true := by
  obtain ⟨s', pops, heq, -⟩ := varBackward_core (build_wf hb) vid
  rw [heq]
  rfl

/-- The chain `y = square(exp(square(x)))` as a build trace. -/
def stepsEx : List Step := [.leaf (1/2), .sq 0, .ex (fun q => q + 1) 1, .sq 2]

/-- Witness for `backward_never_panics`: the concrete chain trace. -/
theorem backward_never_panics_witness :
    (build stepsEx).isSome = true ∧
    ∀ s ∈ build stepsEx, (varBackward s 3).isSome = true :=
  ⟨rfl, fun s hs => backward_never_panics stepsEx s 3 (Option.mem_def.mp hs)⟩



/-- Clearing every gradient of the result of a backward pass restores the
original all-gradients-clear state. -/
theorem clearAll_restores {s t : State} (hst : structEq s t)
    (hg : ∀ v ∈ s.vars, v.grad = none) : clearAllGrads t = s := by
  have hvars : (clearAllGrads t).vars = s.vars := by
    apply List.ext_getElem?
    intro i
    show (t.vars.map _)[i]? = s.vars[i]?
    rw [List.getElem?_map]
    cases hv : s.vars[i]? with
    | none => rw [structEq_var_none hst hv]; rfl
    | some v =>
      obtain ⟨w, hw, hdata, hcr, hgen, hoid⟩ := structEq_var hst hv
      rw [hw, Option.map_some']
      have hvg : v.grad = none := hg v (List.getElem?_mem hv)
      cases v
      cases w
      simp_all
  have hfun : (clearAllGrads t).funcs = s.funcs := hst.1
  cases s with
  | mk svars sfuncs =>
    show State.mk _ _ = State.mk svars sfuncs
    rw [State.mk.injEq]
    exact ⟨hvars, hfun⟩

/-- C6: replay is reproducible: after one backward pass from a root of a
forward graph (all gradients initially clear), clearing every Variable's
gradient and re-running backward() on the same root reproduces the identical
result — the same final gradients (indeed the same final state and the same
pop sequence). -/
theorem backward_replay {s : State} {vid : Nat} {s1 : State} {p1 : List Candidate}
    (hg : ∀ v ∈ s.vars, v.grad = none)
    (h : varBackward s vid = some (s1, p1)) :
    varBackward (clearAllGrads s1) vid = some (s1, p1) := by
  rw [clearAll_restores (varBackward_frame h) hg]
  exact h

/-- Witness for `backward_replay`: the diamond graph at data `3`. -/
theorem backward_replay_witness :
    (∀ v ∈ (diamondTwoState 3).vars, v.grad = none) ∧
    (varBackward (diamondTwoState 3) 1).isSome = true ∧
    ∀ p ∈ varBackward (diamondTwoState 3) 1,
      varBackward (clearAllGrads p.1) 1 = some p :=
  ⟨by decide, rfl, fun p hp => backward_replay (by decide) (Option.mem_def.mp hp)⟩

/-- Apply a Variable-valued function to a fresh Variable holding data `d`
(as `numerical_diff` does for its two perturbed probes) and read the output
Variable's data. -/
def evalAt (f : State → Nat → Option (State × Nat)) (d : Data) : Option Data := do
  let p := Variable.new State.empty d
  let (t, y) ← f p.1 p.2
  let v ← t.vars[y]?
  pure v.data

/-- C9: `numerical_diff f x eps` builds two fresh Variables carrying
`x.data − ε` and `x.data + ε` with `ε = eps.getD 1e-4` (so `1e-4` when no
explicit eps is supplied), applies `f` to each, and returns
`(f(x+ε).data − f(x−ε).data) / (2ε)`. -/
theorem numerical_diff_central (f : State → Nat → Option (State × Nat))
    (s : State) (x : Nat) (eps : Option Data) (v : VariableCell) (d0 d1 : Data)
    (hv : s.vars[x]? = some v)
    (h0 : evalAt f (v.data - eps.getD (1 / 10000)) = some d0)
    (h1 : evalAt f (v.data + eps.getD (1 / 10000)) = some d1) :
    numerical_diff f s x eps = some ((d1 - d0) / (2 * eps.getD (1 / 10000))) := by
  unfold numerical_diff
  rw [hv]
  dsimp only [Option.bind_eq_bind, Option.some_bind]
  unfold evalAt at h0 h1
  dsimp only at h0 h1
  cases hf0 : f (Variable.new State.empty (v.data - eps.getD (1 / 10000))).1
      (Variable.new State.empty (v.data - eps.getD (1 / 10000))).2 with
  | none =>
    rw [hf0] at h0
    simp only [Option.bind_eq_bind, Option.none_bind] at h0
    cases h0
  | some q0 =>
    rw [hf0] at h0
    dsimp only [Option.bind_eq_bind, Option.some_bind] at h0 ⊢
    cases hf1 : f (Variable.new State.empty (v.data + eps.getD (1 / 10000))).1
        (Variable.new State.empty (v.data + eps.getD (1 / 10000))).2 with
    | none =>
      rw [hf1] at h1
      simp only [Option.bind_eq_bind, Option.none_bind] at h1
      cases h1
    | some q1 =>
      rw [hf1] at h1
      dsimp only [Option.bind_eq_bind, Option.some_bind] at h1 ⊢
      cases hv0 : q0.1.vars[q0.2]? with
      | none =>
        rw [hv0] at h0
        simp only [Option.bind_eq_bind, Option.none_bind] at h0
        cases h0
      | some w0 =>
        rw [hv0] at h0
        dsimp only [Option.bind_eq_bind, Option.some_bind, pure] at h0 ⊢
        cases hv1 : q1.1.vars[q1.2]? with
        | none =>
          rw [hv1] at h1
          simp only [Option.bind_eq_bind, Option.none_bind] at h1
          cases h1
        | some w1 =>
          rw [hv1] at h1
          dsimp only [Option.bind_eq_bind, Option.some_bind, pure] at h1 ⊢
          injection h0 with h0
          injection h1 with h1
          rw [h0, h1]

/-- Witness for `numerical_diff_central`: the square operator at `x = 3`
with the default `eps = 1e-4 = 1/10000`. -/
theorem numerical_diff_central_witness :
    leafState.vars[0]? = some leafCell ∧
    evalAt square (leafCell.data - (none : Option Data).getD (1 / 10000)) =
      some ((3 - 1 / 10000) * (3 - 1 / 10000)) ∧
    evalAt square (leafCell.data + (none : Option Data).getD (1 / 10000)) =
      some ((3 + 1 / 10000) * (3 + 1 / 10000)) ∧
    numerical_diff square leafState 0 none =
      some (((3 + 1 / 10000) * (3 + 1 / 10000) - (3 - 1 / 10000) * (3 - 1 / 10000)) /
        (2 * (none : Option Data).getD (1 / 10000))) :=
  ⟨rfl, rfl, rfl,
    numerical_diff_central square leafState 0 none leafCell
      ((3 - 1 / 10000) * (3 - 1 / 10000)) ((3 + 1 / 10000) * (3 + 1 / 10000))
      rfl rfl rfl⟩


end Dezero
